import Mathlib

set_option maxRecDepth 8000
set_option maxHeartbeats 1000000

/-!
Shallow embedding of the cpptouml core: the heuristic C++ structural
extractor (src/cpp_parser.py) and the relationship classifier / graph
traversal engine (src/relationship.py).

Strings are manipulated as lists of characters (`String.data`); every
Python string primitive used by the source (strip, rstrip, split,
regular-expression matches) is transcribed as an explicit character-list
function.  Whitespace is space, tab, CR, LF (`Char.isWhitespace`).
All recursion is structural (an explicit fuel argument stands in for the
two source-level loops whose measure is not structural: the
template-unwrapping recursion of `_extract_type_name` and the BFS work
queue of `analyze_from_class`; in both cases the fuel provably dominates
the number of iterations the Python code can perform).
-/

namespace Cpp2Uml

/-- Regex `\w`: word character `[A-Za-z0-9_]`. -/
def isWordChar (c : Char) : Bool := c.isAlphanum || c == '_'

/-- Regex `\s` and Python `str.strip` whitespace. -/
def isSpaceChar (c : Char) : Bool := c.isWhitespace

/-- Python `str.strip()`: drop leading and trailing whitespace. -/
def pyStrip (l : List Char) : List Char :=
  ((l.dropWhile isSpaceChar).reverse.dropWhile isSpaceChar).reverse

/-- Python `str.rstrip("*&")` (src/relationship.py line 88). -/
def rstripPtr (l : List Char) : List Char :=
  (l.reverse.dropWhile (fun c => c == '*' || c == '&')).reverse

/-- Literal-prefix test (the literal part of an anchored regex match). -/
def kwPre : List Char → List Char → Bool
  | [], _ => true
  | _ :: _, [] => false
  | k :: kt, c :: ct => k == c && kwPre kt ct

/-- Word-boundary keyword occurrence at the head of `l`: `prev` says whether
the character just before `l` was a word character (regex `\b kw \b`). -/
def kwHere (kw : List Char) (prev : Bool) (l : List Char) : Bool :=
  !prev && kwPre kw l &&
    (match l.drop kw.length with
     | [] => true
     | d :: _ => !isWordChar d)

/-- Python `re.sub(r'\b(k1|k2|...)\b', '', s)`: remove every whole-word
occurrence of one of the keywords, scanning left to right.  `skip` counts
characters still to be dropped from a keyword already recognised. -/
def rmKw (kws : List (List Char)) : Nat → Bool → List Char → List Char
  | _, _, [] => []
  | n + 1, _, _ :: rest => rmKw kws n true rest
  | 0, prev, c :: rest =>
    match kws.find? (fun kw => kwHere kw prev (c :: rest)) with
    | some kw => rmKw kws (kw.length - 1) true rest
    | none => c :: rmKw kws 0 (isWordChar c) rest

/-- The keyword set of `re.sub(r'\b(const|volatile)\b', '', type_str)`. -/
def cvKws : List (List Char) := ["const".data, "volatile".data]

/-- Regex `re.match(r'(\w+)<(.+)>', s)` (src/relationship.py line 91):
leading word-character run, `<`, then (greedy `.+`, which cannot cross a
newline) up to the last `>`; returns the inner group when matched. -/
def templateSplit (l : List Char) : Option (List Char) :=
  let w := l.takeWhile isWordChar
  if w.isEmpty then none
  else
    match l.drop w.length with
    | '<' :: rest =>
      let noNl := rest.takeWhile (fun c => !(c == '\n'))
      match noNl.reverse.dropWhile (fun c => !(c == '>')) with
      | _ :: revInner => if revInner.isEmpty then none else some revInner.reverse
      | [] => none
    | _ => none

/-- Python `s.split('::')[-1]`, also the identity when `'::' not in s`
(src/relationship.py lines 102-103): single left-to-right pass, restarting
the current segment after each `::`. -/
def lastScopeSeg (acc : List Char) : List Char → List Char
  | [] => acc.reverse
  | ':' :: ':' :: rest => lastScopeSeg [] rest
  | c :: rest => lastScopeSeg (c :: acc) rest

/-- Source `RelationshipAnalyzer._extract_type_name` (src/relationship.py lines
71-107), recursion made structural on a fuel argument.  The wrapper passes
fuel `s.length + 1`; each template-unwrapping step strictly shrinks the
string, so the `0` branch is unreachable from the wrapper (see
`resolveAux_fuel_irrel`). -/
def resolveAux : Nat → List Char → Option (List Char)
  | 0, _ => none
  | fuel + 1, s =>
    let s1 := pyStrip (rmKw cvKws 0 false s)
    let s2 := pyStrip (rstripPtr s1)
    match templateSplit s2 with
    | some inner =>
      let arg :=
        if ',' ∈ inner then pyStrip ((inner.reverse.takeWhile (fun c => !(c == ','))).reverse)
        else inner
      resolveAux fuel arg
    | none =>
      let s3 := pyStrip (lastScopeSeg [] s2)
      if s3.isEmpty then none else some s3

/-- Wrapper of `RelationshipAnalyzer._extract_type_name` on `String`s. -/
def _extract_type_name (s : String) : Option String :=
  (resolveAux (s.data.length + 1) s.data).map (fun l => String.mk l)

/-- Source `RelationshipAnalyzer._is_pointer_or_reference` (src/relationship.py
lines 109-120): strip, then test the trailing character for `*` or `&`. -/
def _is_pointer_or_reference (s : String) : Bool :=
  match (pyStrip s.data).getLast? with
  | some c => c == '*' || c == '&'
  | none => false

/-! Data model of src/cpp_parser.py (`MethodInfo`, `MemberInfo`,
`ClassInfo`) and the parser state (`classes` dict, `parsed_files` set).
The Python dict is modelled as an insertion-ordered association list with
unique keys maintained by `dictUpsert`; the Python set `parsed_files` as a
list queried by membership. -/

structure MethodInfo where
  name : String
  return_type : String
  parameters : List (String × String)
  access : String
  deriving DecidableEq, Repr

structure MemberInfo where
  name : String
  type_name : String
  access : String
  deriving DecidableEq, Repr

structure ClassInfo where
  name : String
  members : List MemberInfo := []
  methods : List MethodInfo := []
  base_classes : List String := []
  file_path : String := ""
  is_struct : Bool := false
  deriving DecidableEq, Repr

/-- The `CppParser.classes` dict: type name to `ClassInfo`. -/
abbrev Store := List (String × ClassInfo)

/-- Dict lookup `classes[name]` / `classes.get(name)`. -/
def storeFind (classes : Store) (n : String) : Option ClassInfo :=
  (List.find? (fun kv => kv.1 == n) classes).map (fun kv => kv.2)

/-- Python `name in classes` / `RelationshipAnalyzer._is_known_class`
(src/relationship.py lines 122-132). -/
def _is_known_class (classes : Store) (t : String) : Bool :=
  (storeFind classes t).isSome

/-- Dict assignment `classes[name] = info`: replaces in place, else appends
(Python dicts preserve insertion order). -/
def dictUpsert (classes : Store) (n : String) (ci : ClassInfo) : Store :=
  match classes with
  | [] => [(n, ci)]
  | (k, v) :: rest => if k == n then (k, ci) :: rest else (k, v) :: dictUpsert rest n ci

/-! Data model of src/relationship.py. -/

/-- Source `RelationType` (src/relationship.py lines 16-29). -/
inductive RelationType where
  | inheritance
  | composition
  | aggregation
  | dependency
  deriving DecidableEq, Repr

/-- Source `Relationship` (src/relationship.py lines 32-46). -/
structure Relationship where
  from_class : String
  to_class : String
  rel_type : RelationType
  label : String := ""
  deriving DecidableEq, Repr

/-- The deduplication key used by `analyze_from_class` / `analyze_all`
(src/relationship.py line 360): `(rel.from_class, rel.to_class, rel.rel_type)`. -/
def relKey (r : Relationship) : String × String × RelationType :=
  (r.from_class, r.to_class, r.rel_type)

/-- The member loop of `_analyze_class` (src/relationship.py lines 164-179):
walks `class_info.members` threading the `seen_members` set (modelled as an
insertion-ordered list) and collecting the composition/aggregation edges in
order; returns the final `seen_members` and the edges. -/
def memberScan (classes : Store) (cn : String) : List MemberInfo → List String → List String × List Relationship
  | [], seen => (seen, [])
  | m :: rest, seen =>
    match _extract_type_name m.type_name with
    | some tn =>
      if tn ≠ cn ∧ tn ∉ seen then
        if _is_known_class classes tn then
          let rt := if _is_pointer_or_reference m.type_name then RelationType.aggregation
                    else RelationType.composition
          let pr := memberScan classes cn rest (seen ++ [tn])
          (pr.1, { from_class := cn, to_class := tn, rel_type := rt } :: pr.2)
        else memberScan classes cn rest seen
      else memberScan classes cn rest seen
    | none => memberScan classes cn rest seen

/-- The parameter sub-loop of the dependency pass of `_analyze_class`
(src/relationship.py lines 191-196), threading the `seen_deps` set. -/
def depParamScan (classes : Store) (cn : String) (seen_members : List String) :
    List (String × String) → List String → List String
  | [], seen => seen
  | p :: rest, seen =>
    let seen2 :=
      match _extract_type_name p.2 with
      | some tn =>
        if tn ≠ cn ∧ _is_known_class classes tn ∧ tn ∉ seen_members ∧ tn ∉ seen
        then seen ++ [tn] else seen
      | none => seen
    depParamScan classes cn seen_members rest seen2

/-- The method loop of the dependency pass of `_analyze_class`
(src/relationship.py lines 182-196): return type first, then parameters. -/
def depScan (classes : Store) (cn : String) (seen_members : List String) :
    List MethodInfo → List String → List String
  | [], seen => seen
  | f :: rest, seen =>
    let seen1 :=
      match _extract_type_name f.return_type with
      | some tn =>
        if tn ≠ cn ∧ tn ∉ seen ∧ _is_known_class classes tn ∧ tn ∉ seen_members
        then seen ++ [tn] else seen
      | none => seen
    depScan classes cn seen_members rest (depParamScan classes cn seen_members f.parameters seen1)

/-- Source `RelationshipAnalyzer._analyze_class` (src/relationship.py lines
134-205): inheritance edges from the raw base-class expressions, then the
member (composition/aggregation) pass, then one dependency edge per element
of the final `seen_deps` set (set iteration modelled in insertion order). -/
def _analyze_class (classes : Store) (ci : ClassInfo) : List Relationship :=
  let cn := ci.name
  let inh := ci.base_classes.filterMap (fun b =>
    (_extract_type_name b).map (fun bn =>
      ({ from_class := bn, to_class := cn, rel_type := RelationType.inheritance } : Relationship)))
  let mem := memberScan classes cn ci.members []
  let deps := depScan classes cn mem.1 ci.methods []
  inh ++ mem.2 ++ deps.map (fun d =>
    { from_class := cn, to_class := d, rel_type := RelationType.dependency })

/-- Source `RelationshipAnalyzer._find_child_classes` (src/relationship.py lines
207-223): every stored class whose *raw* `base_classes` list contains
`parent` as a string. -/
def _find_child_classes (classes : Store) (parent : String) : List String :=
  match classes with
  | [] => []
  | (cn, ci) :: rest =>
    if parent ∈ ci.base_classes then cn :: _find_child_classes rest parent
    else _find_child_classes rest parent

/-- Truthiness of `allowed_types is None or (allowed_types & {COMPOSITION,
AGGREGATION})` (src/relationship.py line 247). -/
def memberScanAllowed (allowed : Option (List RelationType)) : Bool :=
  match allowed with
  | none => true
  | some l => l.contains RelationType.composition || l.contains RelationType.aggregation

/-- Test `allowed_types is None or RelationType.DEPENDENCY in allowed_types`
(src/relationship.py line 256). -/
def depScanAllowed (allowed : Option (List RelationType)) : Bool :=
  match allowed with
  | none => true
  | some l => l.contains RelationType.dependency

/-- Whether one member of `ci` has a type resolving to `target` (the inner
member loop of `_find_classes_using`, src/relationship.py lines 248-253). -/
def usesAsMember (ci : ClassInfo) (target : String) : Bool :=
  ci.members.any (fun m => _extract_type_name m.type_name == some target)

/-- Whether one method parameter of `ci` has a type resolving to `target`
(the inner method loop of `_find_classes_using`, src/relationship.py lines
257-265); return types are not inspected there. -/
def usesAsParam (ci : ClassInfo) (target : String) : Bool :=
  ci.methods.any (fun f => f.parameters.any (fun p => _extract_type_name p.2 == some target))

/-- Source `RelationshipAnalyzer._find_classes_using` (src/relationship.py lines
225-267): reverse scan over the store; a class is appended (once) when a
member matches (if composition/aggregation are allowed) or else when a
method parameter matches (if dependency is allowed). -/
def _find_classes_using (classes : Store) (target : String)
    (allowed : Option (List RelationType)) : List String :=
  match classes with
  | [] => []
  | (cn, ci) :: rest =>
    if cn == target then _find_classes_using rest target allowed
    else if memberScanAllowed allowed && usesAsMember ci target then
      cn :: _find_classes_using rest target allowed
    else if depScanAllowed allowed && usesAsParam ci target then
      cn :: _find_classes_using rest target allowed
    else _find_classes_using rest target allowed

/-- Map `type_map` of `analyze_from_class` (src/relationship.py lines 300-306). -/
def typeMapLookup (t : String) : Option RelationType :=
  if t == "inheritance" then some RelationType.inheritance
  else if t == "composition" then some RelationType.composition
  else if t == "aggregation" then some RelationType.aggregation
  else if t == "dependency" then some RelationType.dependency
  else none

/-- The filter conversion of `analyze_from_class` (src/relationship.py lines
298-306): a falsy (absent or empty) `rel_type_filter` leaves
`allowed_types = None`; unknown strings are dropped (the Python set is
modelled as a list, queried only by membership). -/
def allowedOf (filterL : Option (List String)) : Option (List RelationType) :=
  match filterL with
  | none => none
  | some [] => none
  | some fs => some (fs.filterMap typeMapLookup)

/-- Truthiness of `allowed_types and rel.rel_type not in allowed_types`
(src/relationship.py line 328): skip the edge iff a non-empty filter set
exists and does not contain the kind. -/
def skipRel (allowed : Option (List RelationType)) (rt : RelationType) : Bool :=
  match allowed with
  | none => false
  | some l => !l.isEmpty && !l.contains rt

/-- Test `allowed_types is None or RelationType.INHERITANCE in allowed_types`
(src/relationship.py line 343). -/
def inhScanAllowed (allowed : Option (List RelationType)) : Bool :=
  match allowed with
  | none => true
  | some l => l.contains RelationType.inheritance

/-- Truthiness of `allowed_types is None or (allowed_types & {COMPOSITION,
AGGREGATION, DEPENDENCY})` (src/relationship.py lines 349-351). -/
def userScanAllowed (allowed : Option (List RelationType)) : Bool :=
  match allowed with
  | none => true
  | some l => l.contains RelationType.composition || l.contains RelationType.aggregation
      || l.contains RelationType.dependency

/-- One `while queue:` iteration body of `analyze_from_class`
(src/relationship.py lines 312-354), written as a fuel-indexed recursion;
fuel bounds the number of pops, and the wrapper's fuel (`bfsFuel`)
dominates every possible pop count, making the exhaustion branch
unreachable.  The queue is FIFO (`deque.popleft` / `append`); `visited` is
the visited set in marking order. -/
def bfsGo (classes : Store) (allowed : Option (List RelationType)) (max_depth : Nat) :
    Nat → List (String × Nat) → List String → List Relationship →
    List String × List Relationship
  | _, [], visited, rels => (visited, rels)
  | 0, _ :: _, visited, rels => (visited, rels)
  | fuel + 1, (cn, depth) :: rest, visited, rels =>
    if cn ∈ visited then bfsGo classes allowed max_depth fuel rest visited rels
    else
      let visited2 := visited ++ [cn]
      match storeFind classes cn with
      | none => bfsGo classes allowed max_depth fuel rest visited2 rels
      | some ci =>
        let class_rels := _analyze_class classes ci
        let surviving := class_rels.filter (fun r => !skipRel allowed r.rel_type)
        let enqRel :=
          if depth < max_depth then
            surviving.foldr (fun r acc =>
              (if r.to_class ∉ visited2 then [(r.to_class, depth + 1)] else []) ++
              (if r.from_class ∉ visited2 then [(r.from_class, depth + 1)] else []) ++ acc) []
          else []
        let enqChild :=
          if depth < max_depth ∧ inhScanAllowed allowed then
            ((_find_child_classes classes cn).filter (fun c => c ∉ visited2)).map
              (fun c => (c, depth + 1))
          else []
        let enqUsers :=
          if depth < max_depth ∧ userScanAllowed allowed then
            ((_find_classes_using classes cn allowed).filter (fun c => c ∉ visited2)).map
              (fun c => (c, depth + 1))
          else []
        bfsGo classes allowed max_depth fuel (rest ++ enqRel ++ enqChild ++ enqUsers)
          visited2 (rels ++ surviving)

/-- Total length of all classification outputs over the store; part of the
fuel bound for `bfsGo`. -/
def relTotal (classes : Store) : Nat :=
  (classes.map (fun kv => (_analyze_class classes kv.2).length)).sum

/-- Fuel dominating the number of `bfsGo` pops: at most
`1 + (number of distinct enqueueable names) * (max enqueues per visit)`
pops can ever occur, which this product exceeds. -/
def bfsFuel (classes : Store) : Nat :=
  Nat.succ ((1 + 2 * relTotal classes + classes.length) *
    (2 * relTotal classes + 2 * classes.length + 1) + 1)

/-- The final deduplication loop of `analyze_from_class` / `analyze_all`
(src/relationship.py lines 356-363 and 385-392), threading the `seen` key
set. -/
def dedupGo (seen : List (String × String × RelationType)) :
    List Relationship → List Relationship
  | [] => []
  | r :: rest =>
    if relKey r ∈ seen then dedupGo seen rest
    else r :: dedupGo (relKey r :: seen) rest

/-- Relationship-list deduplication by `(from, to, kind)`, keeping first
occurrences in order. -/
def dedupRels (l : List Relationship) : List Relationship := dedupGo [] l

/-- Source `RelationshipAnalyzer.analyze_from_class` (src/relationship.py lines
269-365). -/
def analyze_from_class (classes : Store) (start_class : String) (max_depth : Nat)
    (rel_type_filter : Option (List String)) : List String × List Relationship :=
  if ¬ _is_known_class classes start_class then ([], [])
  else
    let allowed := allowedOf rel_type_filter
    let pr := bfsGo classes allowed max_depth (bfsFuel classes) [(start_class, 0)] [] []
    (pr.1, dedupRels pr.2)

/-- Source `RelationshipAnalyzer.analyze_all` (src/relationship.py lines 367-394):
classify every stored class in dict order (each `class_name` looked up
again, exactly as the source does), then deduplicate. -/
def analyze_all (classes : Store) : List String × List Relationship :=
  let all_classes := classes.map (fun kv => kv.1)
  let all_relationships := (classes.map (fun kv =>
    match storeFind classes kv.1 with
    | some ci => _analyze_class classes ci
    | none => [])).flatten
  (all_classes, dedupRels all_relationships)

/-! Embedding of the structural extractor (src/cpp_parser.py). -/

/-- Scan `re.sub(r'//.*$', '', content, flags=re.MULTILINE)` (line 102): the flag
argument is whether we are inside a line comment (skipping up to, but not
including, the newline). -/
def stripLineComments : Bool → List Char → List Char
  | _, [] => []
  | true, c :: rest =>
    if c == '\n' then '\n' :: stripLineComments false rest
    else stripLineComments true rest
  | false, '/' :: '/' :: rest => stripLineComments true rest
  | false, c :: rest => c :: stripLineComments false rest

/-- Whether `*/` occurs in the list (closing of a block comment). -/
def hasStarSlash : List Char → Bool
  | '*' :: '/' :: _ => true
  | _ :: rest => hasStarSlash rest
  | [] => false

/-- Scan `re.sub(r'/\*.*?\*/', '', content, flags=re.DOTALL)` (line 104): remove
from each `/*` up to the first following `*/`; an unclosed `/*` matches
nothing and is kept verbatim. -/
def stripBlockComments : Bool → List Char → List Char
  | _, [] => []
  | true, '*' :: '/' :: rest => stripBlockComments false rest
  | true, _ :: rest => stripBlockComments true rest
  | false, '/' :: '*' :: rest =>
    if hasStarSlash rest then stripBlockComments true rest
    else '/' :: '*' :: rest
  | false, c :: rest => c :: stripBlockComments false rest

/-- Whether `\s*#` matches here (the whitespace may span newlines, exactly
as `re.sub(r'^\s*#.*$', '', content, flags=re.MULTILINE)` allows). -/
def directiveAhead (l : List Char) : Bool :=
  match l.dropWhile isSpaceChar with
  | '#' :: _ => true
  | _ => false

/-- States of the `_remove_preprocessor` scan (line 117): at a line start
(where `^` can match), skipping the `\s*` of a directive match, skipping
the directive text up to its line end, or inside an ordinary line. -/
inductive PreSt where
  | atStart
  | skipWs
  | skipLine
  | normal

/-- Source `CppParser._remove_preprocessor` (lines 107-117). -/
def rmPre : PreSt → List Char → List Char
  | _, [] => []
  | PreSt.atStart, c :: rest =>
    if directiveAhead (c :: rest) then
      if c == '#' then rmPre PreSt.skipLine rest else rmPre PreSt.skipWs rest
    else c :: rmPre (if c == '\n' then PreSt.atStart else PreSt.normal) rest
  | PreSt.skipWs, c :: rest =>
    if c == '#' then rmPre PreSt.skipLine rest else rmPre PreSt.skipWs rest
  | PreSt.skipLine, c :: rest =>
    if c == '\n' then '\n' :: rmPre PreSt.atStart rest else rmPre PreSt.skipLine rest
  | PreSt.normal, c :: rest =>
    c :: rmPre (if c == '\n' then PreSt.atStart else PreSt.normal) rest

/-- Python `s.split(sep)` for a single-character separator. -/
def splitOnChar (sep : Char) (acc : List Char) : List Char → List (List Char)
  | [] => [acc.reverse]
  | c :: rest =>
    if c == sep then acc.reverse :: splitOnChar sep [] rest
    else splitOnChar sep (c :: acc) rest

/-- Source `CppParser._find_matching_brace` (lines 119-140) recast on the suffix
that starts at the opening brace: returns the body between the braces, or
`none` when the counter never returns to zero (the Python `-1`). -/
def braceBody (l : List Char) : Option (List Char) :=
  match l with
  | '\x7b' :: rest => braceScan rest 1 []
  | _ => none
where
  braceScan : List Char → Nat → List Char → Option (List Char)
  | [], _, _ => none
  | c :: rest, depth, acc =>
    if c == '\x7b' then braceScan rest (depth + 1) (c :: acc)
    else if c == '\x7d' then
      if depth == 1 then some acc.reverse else braceScan rest (depth - 1) (c :: acc)
    else braceScan rest depth (c :: acc)

/-- Keyword set of `re.sub(r'\b(public|private|protected|virtual)\b', '',
part)` in `_parse_inheritance` (line 340). -/
def inhKws : List (List Char) :=
  ["public".data, "private".data, "protected".data, "virtual".data]

/-- Source `CppParser._parse_inheritance` (lines 318-345): split on every comma,
strip access/virtual keywords, keep the non-empty remainders. -/
def _parse_inheritance (l : List Char) : List String :=
  (splitOnChar ',' [] l).filterMap (fun part =>
    let p := pyStrip (rmKw inhKws 0 false part)
    if p.isEmpty then none else some (String.mk p))

/-- One step of the default-value removal
`re.sub(r'\s*=\s*[^,)]+', '', param)` (line 191): whether the pattern
matches starting at this position (the whitespace before `=` may be empty;
after `=`, at least one character other than `,`/`)` must follow, possibly
via backtracking of the inner `\s*`). -/
def defAhead (l : List Char) : Bool :=
  match l.dropWhile isSpaceChar with
  | '=' :: rest =>
    match rest with
    | [] => false
    | c :: _ => !(c == ',') && !(c == ')')
  | _ => false

/-- States of the default-value removal scan: seeking a match start,
skipping `\s*` before `=`, or consuming the matched `[^,)]+` run. -/
inductive DefSt where
  | seek
  | toEq
  | inVal

/-- Scan `re.sub(r'\s*=\s*[^,)]+', '', param)` (line 191), left-to-right and
non-overlapping; the consumed run after `=` is everything up to the next
`,` or `)`. -/
def rmDefaults : DefSt → List Char → List Char
  | _, [] => []
  | DefSt.seek, c :: rest =>
    if defAhead (c :: rest) then
      if c == '=' then rmDefaults DefSt.inVal rest else rmDefaults DefSt.toEq rest
    else c :: rmDefaults DefSt.seek rest
  | DefSt.toEq, c :: rest =>
    if c == '=' then rmDefaults DefSt.inVal rest else rmDefaults DefSt.toEq rest
  | DefSt.inVal, c :: rest =>
    if c == ',' || c == ')' then c :: rmDefaults DefSt.seek rest
    else rmDefaults DefSt.inVal rest

/-- The separator-and-name tail of `re.match(r'^(.+?)(\s+|\s*[&*]+\s*)(\w+)$',
param)` (line 196): given the text after the candidate group 1, try the
two separator alternatives in order and require a word run reaching the
end; returns (separator, name). -/
def sepNameTail (rest : List Char) : Option (List Char × List Char) :=
  let w1 := rest.takeWhile isSpaceChar
  let r1 := rest.drop w1.length
  if !w1.isEmpty && !r1.isEmpty && r1.all isWordChar then some (w1, r1)
  else
    let a := r1.takeWhile (fun c => c == '&' || c == '*')
    let r2 := r1.drop a.length
    let w2 := r2.takeWhile isSpaceChar
    let r3 := r2.drop w2.length
    if !a.isEmpty && !r3.isEmpty && r3.all isWordChar then some (w1 ++ a ++ w2, r3)
    else none

/-- Growth of the non-greedy group 1 of the same match: group 1 (any
characters but a newline, shortest first) followed by `sepNameTail`. -/
def splitTypeName (acc : List Char) : List Char → Option (List Char × List Char × List Char)
  | [] => none
  | c :: rest =>
    if c == '\n' then none
    else
      match sepNameTail rest with
      | some (sep, nm) => some ((c :: acc).reverse, sep, nm)
      | none => splitTypeName (c :: acc) rest

/-- Source `CppParser._parse_single_param` (lines 178-203): drop default values,
strip, split into type and name (space-free separator re-attached to the
type), else an anonymous parameter. -/
def _parse_single_param (param : List Char) : String × String :=
  let p := pyStrip (rmDefaults DefSt.seek param)
  match splitTypeName [] p with
  | some (g1, sep, nm) =>
    let type_part := g1 ++ sep.filter (fun c => !(c == ' '))
    (String.mk (pyStrip nm), String.mk (pyStrip type_part))
  | none => ("", String.mk p)

/-- The comma-splitting loop of `CppParser._parse_parameters` (lines
142-176): `<` and `(` increment, `>` and `)` decrement one shared counter
(which may go negative, hence `Int`); a comma splits only at depth zero. -/
def paramSplit (depth : Int) (current : List Char) : List Char → List (String × String)
  | [] => if (pyStrip current.reverse).isEmpty then [] else [_parse_single_param (pyStrip current.reverse)]
  | c :: rest =>
    if c == '<' || c == '(' then paramSplit (depth + 1) (c :: current) rest
    else if c == '>' || c == ')' then paramSplit (depth - 1) (c :: current) rest
    else if c == ',' && depth == 0 then
      if (pyStrip current.reverse).isEmpty then paramSplit depth [] rest
      else _parse_single_param (pyStrip current.reverse) :: paramSplit depth [] rest
    else paramSplit depth (c :: current) rest

/-- Source `CppParser._parse_parameters` (lines 142-176). -/
def _parse_parameters (params_str : List Char) : List (String × String) :=
  if (pyStrip params_str).isEmpty then [] else paramSplit 0 [] params_str

/-- Match `re.match(r'^(public|private|protected)\s*:', line)` (line 238):
returns the matched specifier. -/
def matchAccessLine (l : List Char) : Option (List Char) :=
  (["public".data, "private".data, "protected".data]).findSome? (fun kw =>
    if kwPre kw l then
      match (l.drop kw.length).dropWhile isSpaceChar with
      | ':' :: _ => some kw
      | _ => none
    else none)

/-- Character class `[\w:&*<>,\s]` of the method/member regexes (lines 248
and 295). -/
def inTypeCls (c : Char) : Bool :=
  isWordChar c || c == ':' || c == '&' || c == '*' || c == '<' || c == '>' || c == ',' ||
    isSpaceChar c

/-- Tail of the method regex after the closing parenthesis (line 251-252):
`\s*(?:const\s*)?(?:override\s*)?(?:final\s*)?(?:=\s*(?:0|default|delete)\s*)?;`
with the optional groups tried present-first (regex backtracking). -/
def methodTail (l : List Char) : Bool :=
  optKw "const".data (l.dropWhile isSpaceChar) (fun l1 =>
    optKw "override".data l1 (fun l2 =>
      optKw "final".data l2 (fun l3 => eqTail l3)))
where
  optKw (kw : List Char) (l : List Char) (k : List Char → Bool) : Bool :=
    (kwPre kw l && k ((l.drop kw.length).dropWhile isSpaceChar)) || k l
  litSemi (w : List Char) (l : List Char) : Bool :=
    kwPre w l &&
      (match (l.drop w.length).dropWhile isSpaceChar with
       | ';' :: _ => true
       | _ => false)
  eqTail (l : List Char) : Bool :=
    (match l with
     | '=' :: r =>
       let r2 := r.dropWhile isSpaceChar
       litSemi "0".data r2 || litSemi "default".data r2 || litSemi "delete".data r2
     | _ => false) ||
    (match l with
     | ';' :: _ => true
     | _ => false)

/-- The `(~?\w+)\s*\(([^)]*)\)` middle of the method regex plus its tail
(lines 249-252), applied after the `\s+` that follows group 1; returns
(name, parameter text). -/
def methodAfterG1 (g1 : List Char) (rest : List Char) : Option (List Char × List Char × List Char) :=
  let w := rest.takeWhile isSpaceChar
  if w.isEmpty then none
  else
    let r1 := rest.drop w.length
    let nmCore := match r1 with
      | '~' :: r => let ws := r.takeWhile isWordChar; if ws.isEmpty then [] else '~' :: ws
      | _ => r1.takeWhile isWordChar
    if nmCore.isEmpty then none
    else
      let r2 := (r1.drop nmCore.length).dropWhile isSpaceChar
      match r2 with
      | '(' :: r3 =>
        let ps := r3.takeWhile (fun c => !(c == ')'))
        match r3.drop ps.length with
        | ')' :: r4 => if methodTail r4 then some (g1, nmCore, ps) else none
        | _ => none
      | _ => none

/-- Non-greedy growth of group 1 (`[\w:&*<>,\s]+?`) of the method regex:
shortest group 1 whose continuation matches wins. -/
def methodGrow (acc : List Char) : List Char → Option (List Char × List Char × List Char)
  | [] => none
  | c :: rest =>
    if inTypeCls c then
      match methodAfterG1 (c :: acc).reverse rest with
      | some r => some r
      | none => methodGrow (c :: acc) rest
    else none

/-- Backtracking of a greedy `\s+` whose continuation may itself absorb
whitespace: try the continuation after the longest whitespace run first,
then after each shorter non-empty run (the regex engine's backtracking of
`kw\s+` before group 1, whose character class includes `\s`). -/
def wsBacktrack {α : Type} (k : List Char → Option α) (r : List Char) : Nat → Option α
  | 0 => none
  | j + 1 => (k (r.drop (j + 1))).orElse (fun _ => wsBacktrack k r j)

/-- The optional `virtual|static|inline` prefixes of the method regex
(line 247), each tried present-first; the mandatory `\s+` after the
keyword is greedy but backtracks through shorter non-empty whitespace
runs before the whole group is dropped. -/
def optPrefKw (kw : List Char) (l : List Char)
    (k : List Char → Option (List Char × List Char × List Char)) :
    Option (List Char × List Char × List Char) :=
  (if kwPre kw l then
    let r := l.drop kw.length
    wsBacktrack k r (r.takeWhile isSpaceChar).length
  else none).orElse (fun _ => k l)

/-- The method recogniser `re.match` of `_parse_class_body` (lines 246-254):
returns (return type, name, parameter text), all raw. -/
def matchMethodLine (l : List Char) : Option (List Char × List Char × List Char) :=
  optPrefKw "virtual".data l (fun l1 =>
    optPrefKw "static".data l1 (fun l2 =>
      optPrefKw "inline".data l2 (fun l3 => methodGrow [] l3)))

/-- The constructor/destructor recogniser
`re.match(r'^(~?\w+)\s*\(([^)]*)\)\s*(?::\s*[^{;]+)?(?:;|{)', line)`
(lines 274-277): returns (name, parameter text). -/
def matchCtorLine (l : List Char) : Option (List Char × List Char) :=
  let nmCore := match l with
    | '~' :: r => let ws := r.takeWhile isWordChar; if ws.isEmpty then [] else '~' :: ws
    | _ => l.takeWhile isWordChar
  if nmCore.isEmpty then none
  else
    let r1 := (l.drop nmCore.length).dropWhile isSpaceChar
    match r1 with
    | '(' :: r2 =>
      let ps := r2.takeWhile (fun c => !(c == ')'))
      match r2.drop ps.length with
      | ')' :: r3 =>
        let r4 := r3.dropWhile isSpaceChar
        match r4 with
        | ':' :: r5 =>
          let v := r5.takeWhile (fun c => !(c == '\x7b') && !(c == ';'))
          if v.isEmpty then none
          else
            match r5.drop v.length with
            | ';' :: _ => some (nmCore, ps)
            | '\x7b' :: _ => some (nmCore, ps)
            | _ => none
        | ';' :: _ => some (nmCore, ps)
        | '\x7b' :: _ => some (nmCore, ps)
        | _ => none
      | _ => none
    | _ => none

/-- Tail of the member regex after the name (lines 297-298):
`\s*(?:\[[^\]]*\])?\s*(?:=\s*[^;]+)?;`. -/
def memberTail (l : List Char) : Bool :=
  let r := l.dropWhile isSpaceChar
  match r with
  | '[' :: r2 =>
    let a := r2.takeWhile (fun c => !(c == ']'))
    (match r2.drop a.length with
     | ']' :: r3 => memberEnd (r3.dropWhile isSpaceChar)
     | _ => false)
  | _ => memberEnd r
where
  memberEnd (l : List Char) : Bool :=
    match l with
    | '=' :: r =>
      let v := r.takeWhile (fun c => !(c == ';'))
      !v.isEmpty &&
        (match r.drop v.length with
         | ';' :: _ => true
         | _ => false)
    | ';' :: _ => true
    | _ => false

/-- The `(\w+)` name and tail of the member regex, applied after the `\s+`
that follows group 1; returns (name). -/
def memberAfterG1 (g1 : List Char) (rest : List Char) : Option (List Char × List Char) :=
  let w := rest.takeWhile isSpaceChar
  if w.isEmpty then none
  else
    let r1 := rest.drop w.length
    let nm := r1.takeWhile isWordChar
    if nm.isEmpty then none
    else if memberTail (r1.drop nm.length) then some (g1, nm) else none

/-- Non-greedy growth of group 1 of the member regex. -/
def memberGrow (acc : List Char) : List Char → Option (List Char × List Char)
  | [] => none
  | c :: rest =>
    if inTypeCls c then
      match memberAfterG1 (c :: acc).reverse rest with
      | some r => some r
      | none => memberGrow (c :: acc) rest
    else none

/-- The optional `static|const|mutable` prefixes of the member regex
(line 294), value-level copy of `optPrefKw` at the member result type,
with the same backtracking `\s+`. -/
def optMemKw (kw : List Char) (l : List Char)
    (k : List Char → Option (List Char × List Char)) : Option (List Char × List Char) :=
  (if kwPre kw l then
    let r := l.drop kw.length
    wsBacktrack k r (r.takeWhile isSpaceChar).length
  else none).orElse (fun _ => k l)

/-- The member-variable recogniser `re.match` of `_parse_class_body`
(lines 293-300): returns (type, name), raw. -/
def matchMemberLine (l : List Char) : Option (List Char × List Char) :=
  optMemKw "static".data l (fun l1 =>
    optMemKw "const".data l1 (fun l2 =>
      optMemKw "mutable".data l2 (fun l3 => memberGrow [] l3)))

/-- What a body line contributes, after the ordered recogniser chain of
`_parse_class_body` (lines 229-314): an access-specifier update, a method,
a constructor/destructor, a member, or nothing. -/
inductive LineHit where
  | acc (kw : String)
  | meth (name return_type : String) (ps : List (String × String))
  | ctor (name : String) (ps : List (String × String))
  | mem (name type_name : String)
  | skip
  deriving DecidableEq

/-- Whether a `LineHit` is an access-specifier update. -/
def isAccessHit : LineHit → Bool
  | LineHit.acc _ => true
  | _ => false

/-- The constructor-then-member fallthrough reached when the method
recogniser fails or its `ret_type`/`'('` guard rejects (lines 273-312). -/
def ctorOrMember (l : List Char) : LineHit :=
  match matchCtorLine l with
  | some (nm, ps) =>
    LineHit.ctor (String.mk (pyStrip nm)) (_parse_parameters (pyStrip ps))
  | none =>
    match matchMemberLine l with
    | some (ty, nm) =>
      let tyS := pyStrip ty
      let nmS := pyStrip nm
      if ¬ tyS.isEmpty ∧ ¬ nmS.isEmpty ∧
          String.mk tyS ∉ (["return", "if", "else", "for", "while"] : List String) then
        LineHit.mem (String.mk nmS) (String.mk tyS)
      else LineHit.skip
    | none => LineHit.skip

/-- The per-line recogniser chain of `_parse_class_body` (lines 229-314),
first match wins: strip, skip empty, access specifier, method (with the
`ret_type and name and '(' not in ret_type` guard), constructor/destructor,
member variable, otherwise nothing. -/
def classifyLine (line : List Char) : LineHit :=
  let l := pyStrip line
  if l.isEmpty then LineHit.skip
  else
    match matchAccessLine l with
    | some kw => LineHit.acc (String.mk kw)
    | none =>
      match matchMethodLine l with
      | some (ret, nm, ps) =>
        let retS := pyStrip ret
        let nmS := pyStrip nm
        if ¬ retS.isEmpty ∧ ¬ nmS.isEmpty ∧ ¬ retS.contains '(' then
          LineHit.meth (String.mk nmS) (String.mk retS) (_parse_parameters (pyStrip ps))
        else ctorOrMember l
      | none => ctorOrMember l

/-- Default visibility of `_parse_class_body` (line 223). -/
def defaultAccess (is_struct : Bool) : String :=
  if is_struct then "public" else "private"

/-- The line loop of `CppParser._parse_class_body` (lines 229-316):
threads the running `current_access` and accumulates members and methods in
source order. -/
def parseBodyLines : List (List Char) → String → List MemberInfo × List MethodInfo
  | [], _ => ([], [])
  | line :: rest, cur =>
    match classifyLine line with
    | LineHit.acc kw => parseBodyLines rest kw
    | LineHit.meth nm ret ps =>
      let pr := parseBodyLines rest cur
      (pr.1, { name := nm, return_type := ret, parameters := ps, access := cur } :: pr.2)
    | LineHit.ctor nm ps =>
      let pr := parseBodyLines rest cur
      (pr.1, { name := nm, return_type := "", parameters := ps, access := cur } :: pr.2)
    | LineHit.mem nm ty =>
      let pr := parseBodyLines rest cur
      ({ name := nm, type_name := ty, access := cur } :: pr.1, pr.2)
    | LineHit.skip => parseBodyLines rest cur

/-- Source `CppParser._parse_class_body` (lines 205-316). -/
def _parse_class_body (body : List Char) (is_struct : Bool) :
    List MemberInfo × List MethodInfo :=
  parseBodyLines (splitOnChar '\n' [] body) (defaultAccess is_struct)

/-- One declaration found by the scan for
`\b(class|struct)\s+(\w+)\s*(?::\s*([^{]+))?\s*\{` (line 375): keyword,
name, the raw base-list group when present, and the suffix of the text
starting at the opening brace. -/
structure DeclHit where
  is_struct : Bool
  name : String
  inh : Option (List Char)
  rest : List Char

/-- Attempt the declaration pattern at the current position (the caller has
already established the `\b` boundary); mirrors the regex group structure,
including the backtracking that leaves at least one character to `[^{]+`. -/
def tryDeclKw (kw : List Char) (is_struct : Bool) (l : List Char) : Option DeclHit :=
  if kwPre kw l then
    let r0 := l.drop kw.length
    let w := r0.takeWhile isSpaceChar
    if w.isEmpty then none
    else
      let r1 := r0.drop w.length
      let nm := r1.takeWhile isWordChar
      if nm.isEmpty then none
      else
        let r2 := (r1.drop nm.length).dropWhile isSpaceChar
        match r2 with
        | '\x7b' :: _ => some ⟨is_struct, String.mk nm, none, r2⟩
        | ':' :: r3 =>
          let v := r3.takeWhile (fun c => !(c == '\x7b'))
          (match r3.drop v.length with
           | '\x7b' :: _ =>
             if v.isEmpty then none
             else
               let wl := min (v.takeWhile isSpaceChar).length (v.length - 1)
               some ⟨is_struct, String.mk nm, some (v.drop wl), r3.drop v.length⟩
           | _ => none)
        | _ => none
  else none

/-- The `class|struct` alternation at the current position. -/
def tryDeclAt (l : List Char) : Option DeclHit :=
  (tryDeclKw "class".data false l).orElse (fun _ => tryDeclKw "struct".data true l)

/-- Scan `re.finditer` of the declaration pattern (line 377): left-to-right,
non-overlapping, resuming after the matched `{` (so declarations nested in
a body are still found).  `prev` tracks the word-character status of the
previous character for the `\b` anchor.  The fuel (one unit per consumed
character, wrapper passes `length + 1`) makes the scan structural. -/
def scanDecls : Nat → Bool → List Char → List DeclHit
  | 0, _, _ => []
  | _, _, [] => []
  | fuel + 1, prev, c :: rest =>
    match if prev then none else tryDeclAt (c :: rest) with
    | some d => d :: scanDecls fuel false ((c :: rest).drop ((c :: rest).length - d.rest.length + 1))
    | none => scanDecls fuel (isWordChar c) rest

/-- The per-declaration body of the `finditer` loop of `parse_file` (lines
377-409): locate the body (skipping the declaration when the brace scan
fails), decompose it, parse the base list, and store the record
(last-write-wins per name). -/
def applyDecl (path : String) (classes : Store) (d : DeclHit) : Store :=
  match braceBody d.rest with
  | none => classes
  | some body =>
    let mm := _parse_class_body body d.is_struct
    let base_classes :=
      match d.inh with
      | some g => if g.isEmpty then [] else _parse_inheritance g
      | none => []
    dictUpsert classes d.name
      { name := d.name, members := mm.1, methods := mm.2,
        base_classes := base_classes, file_path := path, is_struct := d.is_struct }

/-- The parser state: the `classes` dict and the `parsed_files` set of
`CppParser` (lines 88-89). -/
structure CppParserState where
  classes : Store
  parsed_files : List String
  deriving Repr

/-- The empty state built by `CppParser.__init__`. -/
def initState : CppParserState := ⟨[], []⟩

/-- Source `CppParser.parse_file` (lines 347-412) with the file content supplied
directly (reading and path resolution belong to the external source
provider; `path` stands for the already-resolved path, and a successful
read is assumed, so the `True` result is always reached). -/
def parse_file (st : CppParserState) (path : String) (content : String) :
    CppParserState × Bool :=
  if path ∈ st.parsed_files then (st, true)
  else
    let c1 := rmPre PreSt.atStart (stripBlockComments false (stripLineComments false content.data))
    let decls := scanDecls (c1.length + 1) false c1
    let classes := decls.foldl (applyDecl path) st.classes
    (⟨classes, st.parsed_files ++ [path]⟩, true)

/-- Source `CppParser.clear` (lines 470-478). -/
def clearState (_st : CppParserState) : CppParserState := ⟨[], []⟩

/-! Auxiliary definitions used only by the statements and proofs below. -/

/-- A raw type expression with template-argument nesting of depth `n`:
`B`, `V<B>`, `V<V<B>>`, ... -/
def nestedChars : Nat → List Char
  | 0 => ['B']
  | n + 1 => 'V' :: '<' :: (nestedChars n ++ ['>'])

/-- View `nestedChars` as a `String`. -/
def nestedV (n : Nat) : String := String.mk (nestedChars n)

/-- Specification of first-occurrence deduplication, written independently
of the `seen`-set loop: keep the head, drop every later relationship with
the same key, recurse. -/
def firstOcc : List Relationship → List Relationship
  | [] => []
  | r :: rest => r :: firstOcc (rest.filter (fun x => decide (relKey x ≠ relKey r)))
termination_by l => l.length
decreasing_by
  simp only [List.length_cons]
  exact Nat.lt_succ_of_le (List.length_filter_le _ _)

/-- A store whose only class has a base expression resolving to a name
absent from the store. -/
def exStoreAbsentBase : Store :=
  [("Derived", { name := "Derived", base_classes := ["Base"] })]

/-- A class whose only use of `X` is as a method return type. -/
def exReturnUser : ClassInfo :=
  { name := "U",
    methods := [{ name := "getX", return_type := "X", parameters := [], access := "public" }] }

/-- A store where `U` uses `X` only as a method return type. -/
def exStoreReturnOnly : Store := [("X", { name := "X" }), ("U", exReturnUser)]

/-- A store where `Derived`'s raw base expression `ns::Base` resolves to
`Base` but is not string-equal to it. -/
def exStoreScopedBase : Store :=
  [("Base", { name := "Base" }),
   ("Derived", { name := "Derived", base_classes := ["ns::Base"] })]

/-- A class with one member of type `B` and methods whose signatures use
`C` (parameter and return) and `B` (parameter and pointer parameter). -/
def exDepClass : ClassInfo :=
  { name := "A",
    members := [{ name := "b", type_name := "B", access := "private" }],
    methods :=
      [{ name := "use", return_type := "void", parameters := [("c", "C"), ("b2", "B")],
         access := "public" },
       { name := "mk", return_type := "C", parameters := [("b3", "B*")], access := "public" }] }

/-- A three-class store exercising composition and dependency edges. -/
def exStoreDeps : Store :=
  [("A", exDepClass), ("B", { name := "B" }), ("C", { name := "C" })]

/-- A store where `Derived` lists the literal string `Base` among its raw
base classes and both are stored. -/
def exStoreLiteralBase : Store :=
  [("Base", { name := "Base" }),
   ("Derived", { name := "Derived", base_classes := ["Base"] })]

/-- The §8 example source `struct Base {}; struct Derived : public Base {};`. -/
def exSrcBaseDerived : String :=
  "struct Base \x7b\x7d; struct Derived : public Base \x7b\x7d;"

/-- The store obtained by parsing `exSrcBaseDerived`. -/
def exParsedStore : Store := (parse_file initState "ex.h" exSrcBaseDerived).1.classes



/-- The running visibility after processing a list of body lines, starting
from `cur`: the most recent access specifier seen, if any. -/
def trackVis (cur : String) (lines : List (List Char)) : String :=
  lines.foldl (fun c line =>
    match classifyLine line with
    | LineHit.acc kw => kw
    | _ => c) cur

theorem pyStrip_length_le (l : List Char) : (pyStrip l).length ≤ l.length := by
  calc (pyStrip l).length
      = ((l.dropWhile isSpaceChar).reverse.dropWhile isSpaceChar).length := by
        simp [pyStrip]
    _ ≤ (l.dropWhile isSpaceChar).reverse.length :=
        (List.dropWhile_sublist _).length_le
    _ = (l.dropWhile isSpaceChar).length := List.length_reverse _
    _ ≤ l.length := (List.dropWhile_sublist _).length_le

theorem rstripPtr_length_le (l : List Char) : (rstripPtr l).length ≤ l.length := by
  calc (rstripPtr l).length
      = (l.reverse.dropWhile (fun c => c == '*' || c == '&')).length := by
        simp [rstripPtr]
    _ ≤ l.reverse.length := (List.dropWhile_sublist _).length_le
    _ = l.length := List.length_reverse _

theorem rmKw_length_le (kws : List (List Char)) :
    ∀ (l : List Char) (skip : Nat) (prev : Bool), (rmKw kws skip prev l).length ≤ l.length := by
  intro l
  induction l with
  | nil => intro skip prev; cases skip <;> simp [rmKw]
  | cons c rest ih =>
    intro skip prev
    cases skip with
    | succ n =>
      simpa [rmKw] using Nat.le_succ_of_le (ih n true)
    | zero =>
      simp only [rmKw]
      cases h : List.find? (fun kw => kwHere kw prev (c :: rest)) kws with
      | some kw => simpa using Nat.le_succ_of_le (ih (kw.length - 1) true)
      | none => simpa using ih 0 (isWordChar c)

theorem templateSplit_length_lt {l inner : List Char}
    (h : templateSplit l = some inner) : inner.length < l.length := by
  unfold templateSplit at h
  simp only [] at h
  split at h
  · exact absurd h (by simp)
  · rename_i hw
    split at h
    · rename_i rest hd
      split at h
      · rename_i a revInner hrev
        split at h
        · exact absurd h (by simp)
        · rename_i he
          have h0 := Option.some.inj h
          subst h0
          have h1 : revInner.length + 1 ≤
              (rest.takeWhile (fun c => !(c == '\n'))).length := by
            have h2 : (List.dropWhile (fun c => !(c == '>'))
                  (rest.takeWhile (fun c => !(c == '\n'))).reverse).length ≤
                (rest.takeWhile (fun c => !(c == '\n'))).reverse.length :=
              (List.dropWhile_sublist _).length_le
            rw [hrev, List.length_reverse] at h2
            simpa using h2
          have h2 : (rest.takeWhile (fun c => !(c == '\n'))).length ≤ rest.length :=
            (List.takeWhile_sublist _).length_le
          have h3 : (List.drop (l.takeWhile isWordChar).length l).length
              = l.length - (l.takeWhile isWordChar).length := List.length_drop _ _
          rw [hd] at h3
          simp only [List.length_cons] at h3
          have h4 : 1 ≤ (l.takeWhile isWordChar).length := by
            cases hwl : l.takeWhile isWordChar with
            | nil => rw [hwl] at hw; simp at hw
            | cons x xs => simp [hwl]
          have h5 : (l.takeWhile isWordChar).length ≤ l.length :=
            (List.takeWhile_sublist _).length_le
          simp only [List.length_reverse]
          omega
      · exact absurd h (by simp)
    · exact absurd h (by simp)


theorem resolveAux_fuel_irrel :
    ∀ (k : Nat) (s : List Char), s.length ≤ k →
      ∀ (n m : Nat), s.length < n → s.length < m → resolveAux n s = resolveAux m s := by
  intro k
  induction k with
  | zero =>
    intro s hs n m hn hm
    have hs0 : s = [] := List.length_eq_zero.mp (Nat.le_zero.mp hs)
    subst hs0
    obtain ⟨n1, rfl⟩ : ∃ n1, n = n1 + 1 := ⟨n - 1, by omega⟩
    obtain ⟨m1, rfl⟩ : ∃ m1, m = m1 + 1 := ⟨m - 1, by omega⟩
    rfl
  | succ k ih =>
    intro s hs n m hn hm
    obtain ⟨n1, rfl⟩ : ∃ n1, n = n1 + 1 := ⟨n - 1, by omega⟩
    obtain ⟨m1, rfl⟩ : ∃ m1, m = m1 + 1 := ⟨m - 1, by omega⟩
    simp only [resolveAux]
    cases htm : templateSplit (pyStrip (rstripPtr (pyStrip (rmKw cvKws 0 false s)))) with
    | none => rfl
    | some inner =>
      simp only []
      have hlt : inner.length < s.length := by
        have h1 := templateSplit_length_lt htm
        have h2 := pyStrip_length_le (rstripPtr (pyStrip (rmKw cvKws 0 false s)))
        have h3 := rstripPtr_length_le (pyStrip (rmKw cvKws 0 false s))
        have h4 := pyStrip_length_le (rmKw cvKws 0 false s)
        have h5 := rmKw_length_le cvKws s 0 false
        omega
      have harg : (if ',' ∈ inner then
          pyStrip ((inner.reverse.takeWhile (fun c => !(c == ','))).reverse)
          else inner).length ≤ inner.length := by
        by_cases hc : ',' ∈ inner
        · simp only [hc, if_true]
          have h1 := pyStrip_length_le ((inner.reverse.takeWhile (fun c => !(c == ','))).reverse)
          have h2 : ((inner.reverse.takeWhile (fun c => !(c == ','))).reverse).length ≤
              inner.length := by
            have h3 : (inner.reverse.takeWhile (fun c => !(c == ','))).length ≤
                inner.reverse.length := (List.takeWhile_sublist _).length_le
            simpa using h3
          omega
        · simp [hc]
      exact ih _ (by omega) n1 m1 (by omega) (by omega)


theorem dropWhile_id_of (p : Char → Bool) (l : List Char) (H : ∀ c ∈ l, p c = false) :
    l.dropWhile p = l := by
  cases l with
  | nil => rfl
  | cons c rest => simp [List.dropWhile, H c (List.mem_cons_self c rest)]

theorem takeWhile_id_of (p : Char → Bool) (l : List Char) (H : ∀ c ∈ l, p c = true) :
    l.takeWhile p = l := by
  induction l with
  | nil => rfl
  | cons c rest ih =>
    simp only [List.takeWhile, H c (List.mem_cons_self c rest)]
    rw [ih (fun d hd => H d (List.mem_cons_of_mem c hd))]

theorem pyStrip_id_of (l : List Char) (H : ∀ c ∈ l, isSpaceChar c = false) :
    pyStrip l = l := by
  unfold pyStrip
  rw [dropWhile_id_of _ l H,
    dropWhile_id_of _ l.reverse (fun c hc => H c (List.mem_reverse.mp hc)),
    List.reverse_reverse]

theorem rstripPtr_id_of (l : List Char) (H : ∀ c ∈ l, (c == '*' || c == '&') = false) :
    rstripPtr l = l := by
  unfold rstripPtr
  rw [dropWhile_id_of _ l.reverse (fun c hc => H c (List.mem_reverse.mp hc)),
    List.reverse_reverse]

theorem rmKw_id_of (kws : List (List Char)) :
    ∀ (l : List Char), (∀ kw ∈ kws, ∃ k0 kt, kw = k0 :: kt ∧ k0 ∉ l) →
      ∀ prev, rmKw kws 0 prev l = l := by
  intro l
  induction l with
  | nil => intro _ prev; rfl
  | cons c rest ih =>
    intro H prev
    have hfind : List.find? (fun kw => kwHere kw prev (c :: rest)) kws = none := by
      rw [List.find?_eq_none]
      intro kw hkw
      obtain ⟨k0, kt, rfl, hk0⟩ := H kw hkw
      have hne : (k0 == c) = false := by
        have : k0 ≠ c := fun he => hk0 (he ▸ List.mem_cons_self c rest)
        exact beq_eq_false_iff_ne.mpr this
      simp [kwHere, kwPre, hne]
    simp only [rmKw, hfind]
    rw [ih (fun kw hkw => by
      obtain ⟨k0, kt, heq, hk0⟩ := H kw hkw
      exact ⟨k0, kt, heq, fun hm => hk0 (List.mem_cons_of_mem c hm)⟩) (isWordChar c)]

theorem nestedChars_mem : ∀ (n : Nat), ∀ c ∈ nestedChars n,
    c = 'V' ∨ c = '<' ∨ c = '>' ∨ c = 'B' := by
  intro n
  induction n with
  | zero => intro c hc; simp [nestedChars] at hc; simp [hc]
  | succ n ih =>
    intro c hc
    simp only [nestedChars, List.mem_cons, List.mem_append, List.mem_singleton,
      List.not_mem_nil, or_false] at hc
    rcases hc with h | h | h | h
    · exact Or.inl h
    · exact Or.inr (Or.inl h)
    · exact ih c h
    · exact Or.inr (Or.inr (Or.inl h))

theorem nestedChars_ne_nil (n : Nat) : nestedChars n ≠ [] := by
  cases n <;> simp [nestedChars]

theorem nestedChars_length_succ (n : Nat) :
    (nestedChars (n + 1)).length = (nestedChars n).length + 3 := by
  simp [nestedChars]

theorem templateSplit_nested (n : Nat) :
    templateSplit (nestedChars (n + 1)) = some (nestedChars n) := by
  have hw : (nestedChars (n + 1)).takeWhile isWordChar = ['V'] := by
    simp [nestedChars, List.takeWhile, isWordChar]
  unfold templateSplit
  rw [hw]
  simp only [List.isEmpty_cons, if_false, List.length_cons, List.length_nil]
  have hdrop : (nestedChars (n + 1)).drop 1 = '<' :: (nestedChars n ++ ['>']) := by
    simp [nestedChars]
  rw [hdrop]
  have hnl : (nestedChars n ++ ['>']).takeWhile (fun c => !(c == '\n')) =
      nestedChars n ++ ['>'] := by
    apply takeWhile_id_of
    intro c hc
    rcases List.mem_append.mp hc with h | h
    · rcases nestedChars_mem n c h with h1 | h1 | h1 | h1 <;> simp [h1]
    · simp at h; simp [h]
  simp only [hnl]
  have hrev : (nestedChars n ++ ['>']).reverse = '>' :: (nestedChars n).reverse := by
    simp
  rw [hrev]
  simp only [List.dropWhile]
  have : (('>' : Char) == '>') = true := by decide
  simp only [this, Bool.not_true]
  have hne : ((nestedChars n).reverse).isEmpty = false := by
    cases hn : (nestedChars n).reverse with
    | nil => exact absurd (by simpa using hn) (nestedChars_ne_nil n)
    | cons a b => rfl
  simp [hne]

theorem resolveAux_nested :
    ∀ (n k : Nat), (nestedChars n).length < k → resolveAux k (nestedChars n) = some ['B'] := by
  intro n
  induction n with
  | zero =>
    intro k hk
    obtain ⟨k1, rfl⟩ : ∃ k1, k = k1 + 1 := ⟨k - 1, by omega⟩
    rfl
  | succ n ih =>
    intro k hk
    obtain ⟨k1, rfl⟩ : ∃ k1, k = k1 + 1 := ⟨k - 1, by omega⟩
    have hclean : ∀ c ∈ nestedChars (n + 1),
        c = 'V' ∨ c = '<' ∨ c = '>' ∨ c = 'B' := nestedChars_mem (n + 1)
    have h1 : rmKw cvKws 0 false (nestedChars (n + 1)) = nestedChars (n + 1) := by
      apply rmKw_id_of
      · intro kw hkw
        simp only [cvKws, List.mem_cons, List.not_mem_nil, or_false] at hkw
        rcases hkw with h | h
        · refine ⟨'c', "onst".data, by rw [h], fun hm => ?_⟩
          rcases hclean 'c' hm with h2 | h2 | h2 | h2 <;> simp at h2
        · refine ⟨'v', "olatile".data, by rw [h], fun hm => ?_⟩
          rcases hclean 'v' hm with h2 | h2 | h2 | h2 <;> simp at h2
    have h2 : pyStrip (nestedChars (n + 1)) = nestedChars (n + 1) := by
      apply pyStrip_id_of
      intro c hc
      rcases hclean c hc with h | h | h | h <;> simp [h, isSpaceChar]
    have h3 : rstripPtr (nestedChars (n + 1)) = nestedChars (n + 1) := by
      apply rstripPtr_id_of
      intro c hc
      rcases hclean c hc with h | h | h | h <;> simp [h]
    have hnc : ¬ (',' ∈ nestedChars n) := by
      intro hm
      rcases nestedChars_mem n ',' hm with h | h | h | h <;> simp at h
    simp only [resolveAux, h1, h2, h3, templateSplit_nested n]
    simp only [hnc, if_false]
    apply ih
    have := nestedChars_length_succ n
    omega


/-- C1 counterexample: the claim asserts that a raw type expression whose
template nesting exceeds the fixed bound 32 resolves to `none`; at the
concrete 33-deep nesting `V<V<...<B>...>>` the resolver instead returns
`some "B"`, so no fail-closed ceiling exists. -/
theorem c1_counterexample : _extract_type_name (nestedV 33) = some "B" := by
  show (resolveAux ((nestedV 33).data.length + 1) (nestedV 33).data).map
    (fun l => String.mk l) = some "B"
  have hd : (nestedV 33).data = nestedChars 33 := rfl
  rw [hd, resolveAux_nested 33 _ (Nat.lt_succ_self _)]
  rfl

/-- C1 amended: the type resolver has no recursion-depth ceiling at all:
for every nesting depth `n` (including every depth beyond 32) the resolver
unwraps the template arguments completely and returns the innermost bare
name, never failing closed; its recursion terminates because each
unwrapping step strictly shortens the expression, not because of a cap. -/
theorem c1_amended : ∀ (n : Nat), _extract_type_name (nestedV n) = some "B" := by
  intro n
  show (resolveAux ((nestedV n).data.length + 1) (nestedV n).data).map
    (fun l => String.mk l) = some "B"
  have hd : (nestedV n).data = nestedChars n := rfl
  rw [hd, resolveAux_nested n _ (Nat.lt_succ_self _)]
  rfl


theorem dedupGo_keys_not_seen :
    ∀ (l : List Relationship) (seen : List (String × String × RelationType)),
      ∀ r ∈ dedupGo seen l, relKey r ∉ seen := by
  intro l
  induction l with
  | nil => intro seen r hr; simp [dedupGo] at hr
  | cons x rest ih =>
    intro seen r hr
    by_cases hm : relKey x ∈ seen
    · rw [dedupGo, if_pos hm] at hr
      exact ih seen r hr
    · rw [dedupGo, if_neg hm] at hr
      rcases List.mem_cons.mp hr with h | h
      · subst h; exact hm
      · have := ih (relKey x :: seen) r h
        exact fun hs => this (List.mem_cons_of_mem _ hs)

theorem dedupGo_pairwise :
    ∀ (l : List Relationship) (seen : List (String × String × RelationType)),
      List.Pairwise (fun a b => relKey a ≠ relKey b) (dedupGo seen l) := by
  intro l
  induction l with
  | nil => intro seen; simp [dedupGo]
  | cons x rest ih =>
    intro seen
    by_cases hm : relKey x ∈ seen
    · rw [dedupGo, if_pos hm]; exact ih seen
    · rw [dedupGo, if_neg hm]
      refine List.Pairwise.cons ?_ (ih (relKey x :: seen))
      intro y hy
      have := dedupGo_keys_not_seen rest (relKey x :: seen) y hy
      exact fun he => this (he ▸ List.mem_cons_self _ _)

theorem dedupGo_sublist :
    ∀ (l : List Relationship) (seen : List (String × String × RelationType)),
      List.Sublist (dedupGo seen l) l := by
  intro l
  induction l with
  | nil => intro seen; simp [dedupGo]
  | cons x rest ih =>
    intro seen
    by_cases hm : relKey x ∈ seen
    · rw [dedupGo, if_pos hm]
      exact List.Sublist.cons x (ih seen)
    · rw [dedupGo, if_neg hm]
      exact List.Sublist.cons₂ x (ih (relKey x :: seen))

theorem dedupGo_congr :
    ∀ (l : List Relationship) (s1 s2 : List (String × String × RelationType)),
      (∀ x, x ∈ s1 ↔ x ∈ s2) → dedupGo s1 l = dedupGo s2 l := by
  intro l
  induction l with
  | nil => intro s1 s2 _; rfl
  | cons x rest ih =>
    intro s1 s2 H
    by_cases hm : relKey x ∈ s1
    · rw [dedupGo, if_pos hm, dedupGo, if_pos ((H _).mp hm)]
      exact ih s1 s2 H
    · rw [dedupGo, if_neg hm, dedupGo, if_neg (fun h => hm ((H _).mpr h))]
      rw [ih (relKey x :: s1) (relKey x :: s2) (fun y => by
        simp only [List.mem_cons]
        exact or_congr Iff.rfl (H y))]

theorem dedupGo_cons_filter :
    ∀ (l : List Relationship) (k : String × String × RelationType)
      (seen : List (String × String × RelationType)),
      dedupGo (k :: seen) l =
        dedupGo seen (l.filter (fun x => decide (relKey x ≠ k))) := by
  intro l
  induction l with
  | nil => intro k seen; rfl
  | cons x rest ih =>
    intro k seen
    by_cases hk : relKey x = k
    · have hm : relKey x ∈ k :: seen := hk ▸ List.mem_cons_self _ _
      rw [dedupGo, if_pos hm]
      have hf : (x :: rest).filter (fun x => decide (relKey x ≠ k)) =
          rest.filter (fun x => decide (relKey x ≠ k)) := by
        simp [List.filter, hk]
      rw [hf]
      exact ih k seen
    · have hf : (x :: rest).filter (fun x => decide (relKey x ≠ k)) =
          x :: rest.filter (fun x => decide (relKey x ≠ k)) := by
        simp [List.filter, hk]
      rw [hf]
      by_cases hm : relKey x ∈ seen
      · rw [dedupGo, if_pos (List.mem_cons_of_mem _ hm), dedupGo, if_pos hm]
        exact ih k seen
      · have hm2 : relKey x ∉ k :: seen := by
          intro h
          rcases List.mem_cons.mp h with h | h
          · exact hk h
          · exact hm h
        rw [dedupGo, if_neg hm2, dedupGo, if_neg hm]
        rw [dedupGo_congr rest (relKey x :: k :: seen) (k :: relKey x :: seen)
          (fun y => by simp only [List.mem_cons]; tauto)]
        rw [ih k (relKey x :: seen)]

theorem dedupRels_eq_firstOcc :
    ∀ (N : Nat) (l : List Relationship), l.length ≤ N → dedupRels l = firstOcc l := by
  intro N
  induction N with
  | zero =>
    intro l hl
    have : l = [] := List.length_eq_zero.mp (Nat.le_zero.mp hl)
    subst this; simp [dedupRels, dedupGo, firstOcc]
  | succ N ih =>
    intro l hl
    cases l with
    | nil => simp [dedupRels, dedupGo, firstOcc]
    | cons x rest =>
      have h1 : dedupRels (x :: rest) = x :: dedupGo [relKey x] rest := by
        rw [dedupRels, dedupGo, if_neg (List.not_mem_nil _)]
      rw [h1, dedupGo_cons_filter rest (relKey x) []]
      have h2 : (rest.filter (fun y => decide (relKey y ≠ relKey x))).length ≤ N := by
        have := List.length_filter_le (fun y => decide (relKey y ≠ relKey x)) rest
        simp only [List.length_cons] at hl
        omega
      rw [show dedupGo [] (rest.filter (fun y => decide (relKey y ≠ relKey x))) =
        dedupRels (rest.filter (fun y => decide (relKey y ≠ relKey x))) from rfl]
      rw [ih _ h2]
      conv_rhs => rw [firstOcc]


/-- C7: for every start type, depth and kind filter, the relationship list
returned by `analyze_from_class`, and likewise the one returned by
`analyze_all`, contains no two relationships with the same
`(from, to, kind)` triple; and the deduplication that produces them keeps
exactly the first occurrence of each triple, in first-seen order
(`dedupRels` equals the first-occurrence spec `firstOcc` and is a sublist
of its input). -/
theorem c7_no_duplicate_triples :
    (∀ (classes : Store) (start_class : String) (max_depth : Nat)
        (rel_type_filter : Option (List String)),
      List.Pairwise (fun a b => relKey a ≠ relKey b)
        (analyze_from_class classes start_class max_depth rel_type_filter).2) ∧
    (∀ classes : Store,
      List.Pairwise (fun a b => relKey a ≠ relKey b) (analyze_all classes).2) ∧
    (∀ l : List Relationship,
      dedupRels l = firstOcc l ∧ List.Sublist (dedupRels l) l) := by
  refine ⟨?_, ?_, ?_⟩
  · intro classes start_class max_depth rel_type_filter
    unfold analyze_from_class
    split
    · simp
    · exact dedupGo_pairwise _ []
  · intro classes
    unfold analyze_all
    exact dedupGo_pairwise _ []
  · intro l
    exact ⟨dedupRels_eq_firstOcc l.length l le_rfl, dedupGo_sublist l []⟩

/-- C3 amended: the reverse-inheritance scan `_find_child_classes` decides
membership by *raw string equality* against the stored `base_classes`
expressions, not by resolving them: a class is returned iff its record
literally lists the node among its raw base-class strings; such classes
are then enqueued at depth+1 (second conjunct: with `Derived` listing the
literal base string `Base`, traversal from `Base` at depth 1 visits
`Derived`). -/
theorem c3_amended :
    (∀ (classes : Store) (parent c : String),
      c ∈ _find_child_classes classes parent ↔
        ∃ ci, (c, ci) ∈ classes ∧ parent ∈ ci.base_classes) ∧
    analyze_from_class exStoreLiteralBase "Base" 1 none =
      (["Base", "Derived"],
       [{ from_class := "Base", to_class := "Derived",
          rel_type := RelationType.inheritance }]) := by
  refine ⟨?_, by decide⟩
  intro classes parent c
  induction classes with
  | nil => simp [_find_child_classes]
  | cons kv rest ih =>
    obtain ⟨cn, ci⟩ := kv
    by_cases h : parent ∈ ci.base_classes
    · rw [show _find_child_classes ((cn, ci) :: rest) parent =
          cn :: _find_child_classes rest parent by
        simp [_find_child_classes, h]]
      simp only [List.mem_cons, ih, Prod.mk.injEq]
      constructor
      · rintro (rfl | ⟨ci2, hm, hp⟩)
        · exact ⟨ci, Or.inl ⟨rfl, rfl⟩, h⟩
        · exact ⟨ci2, Or.inr hm, hp⟩
      · rintro ⟨ci2, (⟨rfl, rfl⟩ | hm), hp⟩
        · exact Or.inl rfl
        · exact Or.inr ⟨ci2, hm, hp⟩
    · rw [show _find_child_classes ((cn, ci) :: rest) parent =
          _find_child_classes rest parent by
        simp [_find_child_classes, h]]
      rw [ih]
      constructor
      · rintro ⟨ci2, hm, hp⟩
        exact ⟨ci2, List.mem_cons_of_mem _ hm, hp⟩
      · rintro ⟨ci2, hm, hp⟩
        rcases List.mem_cons.mp hm with heq | hm2
        · injection heq with h1 h2
          subst h1; subst h2
          exact absurd hp h
        · exact ⟨ci2, hm2, hp⟩

/-- C3 counterexample: in a store where `Derived` has the raw base
expression `ns::Base` (which resolves to `Base`), traversing from `Base`
with depth 1 does not enqueue `Derived`: the reverse-inheritance scan
returns nothing because it compares raw strings, contradicting the claim
that the scan is decided on resolved base names. -/
theorem c3_counterexample :
    _extract_type_name "ns::Base" = some "Base" ∧
    (storeFind exStoreScopedBase "Derived").isSome = true ∧
    _find_child_classes exStoreScopedBase "Base" = [] ∧
    analyze_from_class exStoreScopedBase "Base" 1 none = (["Base"], []) := by
  decide

/-- C2 amended: the reverse "find users" scan `_find_classes_using`
inspects members (when composition/aggregation are allowed) and method
parameters (when dependency is allowed) — but not method return types: a
class is returned iff it differs from the target and one of those two
checks resolves to the target; such classes are then enqueued at depth+1
(second conjunct: `A`, whose member resolves to `B`, is visited when
traversing from `B` at depth 1). -/
theorem c2_amended :
    (∀ (classes : Store) (target : String) (allowed : Option (List RelationType))
      (c : String),
      c ∈ _find_classes_using classes target allowed ↔
        (c ≠ target ∧ ∃ ci, (c, ci) ∈ classes ∧
          ((memberScanAllowed allowed = true ∧ usesAsMember ci target = true) ∨
           (depScanAllowed allowed = true ∧ usesAsParam ci target = true)))) ∧
    analyze_from_class exStoreDeps "B" 1 none =
      (["B", "A"],
       [{ from_class := "A", to_class := "B",
          rel_type := RelationType.composition },
        { from_class := "A", to_class := "C",
          rel_type := RelationType.dependency }]) := by
  refine ⟨?_, by decide⟩
  intro classes target allowed c
  induction classes with
  | nil => simp [_find_classes_using]
  | cons kv rest ih =>
    obtain ⟨cn, ci⟩ := kv
    by_cases h0 : cn = target
    · rw [show _find_classes_using ((cn, ci) :: rest) target allowed =
          _find_classes_using rest target allowed by
        simp [_find_classes_using, h0]]
      rw [ih]
      constructor
      · rintro ⟨hne, ci2, hm, hp⟩
        exact ⟨hne, ci2, List.mem_cons_of_mem _ hm, hp⟩
      · rintro ⟨hne, ci2, hm, hp⟩
        rcases List.mem_cons.mp hm with heq | hm2
        · injection heq with h1 h2
          exact absurd (h1.trans h0) hne
        · exact ⟨hne, ci2, hm2, hp⟩
    · by_cases h1 : memberScanAllowed allowed && usesAsMember ci target
      · rw [show _find_classes_using ((cn, ci) :: rest) target allowed =
            cn :: _find_classes_using rest target allowed by
          simp only [_find_classes_using]
          rw [if_neg (by simpa using h0), if_pos h1]]
        simp only [List.mem_cons, ih, Prod.mk.injEq]
        constructor
        · rintro (rfl | ⟨hne, ci2, hm, hp⟩)
          · exact ⟨h0, ci, Or.inl ⟨rfl, rfl⟩, Or.inl (by simpa using h1)⟩
          · exact ⟨hne, ci2, Or.inr hm, hp⟩
        · rintro ⟨hne, ci2, (⟨rfl, rfl⟩ | hm), hp⟩
          · exact Or.inl rfl
          · exact Or.inr ⟨hne, ci2, hm, hp⟩
      · by_cases h2 : depScanAllowed allowed && usesAsParam ci target
        · rw [show _find_classes_using ((cn, ci) :: rest) target allowed =
              cn :: _find_classes_using rest target allowed by
            simp only [_find_classes_using]
            rw [if_neg (by simpa using h0), if_neg (by simpa using h1), if_pos h2]]
          simp only [List.mem_cons, ih, Prod.mk.injEq]
          constructor
          · rintro (rfl | ⟨hne, ci2, hm, hp⟩)
            · exact ⟨h0, ci, Or.inl ⟨rfl, rfl⟩, Or.inr (by simpa using h2)⟩
            · exact ⟨hne, ci2, Or.inr hm, hp⟩
          · rintro ⟨hne, ci2, (⟨rfl, rfl⟩ | hm), hp⟩
            · exact Or.inl rfl
            · exact Or.inr ⟨hne, ci2, hm, hp⟩
        · rw [show _find_classes_using ((cn, ci) :: rest) target allowed =
              _find_classes_using rest target allowed by
            simp only [_find_classes_using]
            rw [if_neg (by simpa using h0), if_neg (by simpa using h1),
              if_neg (by simpa using h2)]]
          rw [ih]
          constructor
          · rintro ⟨hne, ci2, hm, hp⟩
            exact ⟨hne, ci2, List.mem_cons_of_mem _ hm, hp⟩
          · rintro ⟨hne, ci2, hm, hp⟩
            rcases List.mem_cons.mp hm with heq | hm2
            · injection heq with h3 h4
              subst h3; subst h4
              rcases hp with ⟨ha, hb⟩ | ⟨ha, hb⟩
              · exact absurd (show (memberScanAllowed allowed &&
                  usesAsMember ci2 target) = true by rw [ha, hb]; rfl) h1
              · exact absurd (show (depScanAllowed allowed &&
                  usesAsParam ci2 target) = true by rw [ha, hb]; rfl) h2
            · exact ⟨hne, ci2, hm2, hp⟩

/-- C2 counterexample: in a store where `U`'s only use of `X` is as a
method *return type* (which resolves to `X`), traversing from `X` with
depth 1 does not enqueue `U`: the "find users" scan inspects members and
parameters only, contradicting the claim that return types are also
covered. -/
theorem c2_counterexample :
    _extract_type_name "X" = some "X" ∧
    (storeFind exStoreReturnOnly "U").isSome = true ∧
    exReturnUser.methods.any
      (fun f => _extract_type_name f.return_type == some "X") = true ∧
    _find_classes_using exStoreReturnOnly "X" none = [] ∧
    analyze_from_class exStoreReturnOnly "X" 1 none = (["X"], []) := by
  decide


theorem memberScan_spec (classes : Store) (cn : String) :
    ∀ (ms : List MemberInfo) (seen : List String),
      (∀ x ∈ seen, x ∈ (memberScan classes cn ms seen).1) ∧
      (∀ r ∈ (memberScan classes cn ms seen).2,
        r.to_class ∈ (memberScan classes cn ms seen).1 ∧ r.from_class = cn ∧
        (r.rel_type = RelationType.composition ∨ r.rel_type = RelationType.aggregation)) := by
  intro ms
  induction ms with
  | nil =>
    intro seen
    exact ⟨fun x hx => hx, fun r hr => absurd hr (List.not_mem_nil r)⟩
  | cons m rest ih =>
    intro seen
    cases hx : _extract_type_name m.type_name with
    | none =>
      simpa [memberScan, hx] using ih seen
    | some tn =>
      by_cases hc : tn ≠ cn ∧ tn ∉ seen
      · by_cases hk : _is_known_class classes tn
        · have heq : memberScan classes cn (m :: rest) seen =
              ((memberScan classes cn rest (seen ++ [tn])).1,
               { from_class := cn, to_class := tn,
                 rel_type := if _is_pointer_or_reference m.type_name then
                   RelationType.aggregation else RelationType.composition } ::
               (memberScan classes cn rest (seen ++ [tn])).2) := by
            simp [memberScan, hx, hc, hk]
          rw [heq]
          constructor
          · intro x hxs
            exact (ih (seen ++ [tn])).1 x (List.mem_append.mpr (Or.inl hxs))
          · intro r hr
            rcases List.mem_cons.mp hr with hr1 | hr2
            · subst hr1
              refine ⟨?_, rfl, ?_⟩
              · exact (ih (seen ++ [tn])).1 tn (List.mem_append.mpr (Or.inr (by simp)))
              · by_cases hp : _is_pointer_or_reference m.type_name <;> simp [hp]
            · exact (ih (seen ++ [tn])).2 r hr2
        · simpa [memberScan, hx, hc, hk] using ih seen
      · simpa [memberScan, hx, hc] using ih seen

theorem depParamScan_spec (classes : Store) (cn : String) (seen_members : List String) :
    ∀ (ps : List (String × String)) (seen : List String), seen.Nodup →
      (depParamScan classes cn seen_members ps seen).Nodup ∧
      ∀ x ∈ depParamScan classes cn seen_members ps seen,
        x ∈ seen ∨ (x ≠ cn ∧ _is_known_class classes x = true ∧ x ∉ seen_members) := by
  intro ps
  induction ps with
  | nil => intro seen hn; exact ⟨hn, fun x hx => Or.inl hx⟩
  | cons p rest ih =>
    intro seen hn
    cases hx : _extract_type_name p.2 with
    | none => simpa [depParamScan, hx] using ih seen hn
    | some tn =>
      by_cases hc : tn ≠ cn ∧ _is_known_class classes tn ∧ tn ∉ seen_members ∧ tn ∉ seen
      · have heq : depParamScan classes cn seen_members (p :: rest) seen =
            depParamScan classes cn seen_members rest (seen ++ [tn]) := by
          simp [depParamScan, hx, hc]
        rw [heq]
        have hn2 : (seen ++ [tn]).Nodup := by
          simp [List.nodup_append, hn, hc.2.2.2]
        refine ⟨(ih (seen ++ [tn]) hn2).1, fun x hxm => ?_⟩
        rcases (ih (seen ++ [tn]) hn2).2 x hxm with hin | hnew
        · rcases List.mem_append.mp hin with h | h
          · exact Or.inl h
          · have : x = tn := by simpa using h
            subst this
            exact Or.inr ⟨hc.1, hc.2.1, hc.2.2.1⟩
        · exact Or.inr hnew
      · have heq : depParamScan classes cn seen_members (p :: rest) seen =
            depParamScan classes cn seen_members rest seen := by
          simp only [depParamScan, hx]
          rw [if_neg hc]
        rw [heq]
        exact ih seen hn

theorem depScan_spec (classes : Store) (cn : String) (seen_members : List String) :
    ∀ (fs : List MethodInfo) (seen : List String), seen.Nodup →
      (depScan classes cn seen_members fs seen).Nodup ∧
      ∀ x ∈ depScan classes cn seen_members fs seen,
        x ∈ seen ∨ (x ≠ cn ∧ _is_known_class classes x = true ∧ x ∉ seen_members) := by
  intro fs
  induction fs with
  | nil => intro seen hn; exact ⟨hn, fun x hx => Or.inl hx⟩
  | cons f rest ih =>
    intro seen hn
    have hstep : ∃ seen1, depScan classes cn seen_members (f :: rest) seen =
        depScan classes cn seen_members rest
          (depParamScan classes cn seen_members f.parameters seen1) ∧
        seen1.Nodup ∧
        (∀ x ∈ seen1, x ∈ seen ∨
          (x ≠ cn ∧ _is_known_class classes x = true ∧ x ∉ seen_members)) := by
      cases hx : _extract_type_name f.return_type with
      | none =>
        refine ⟨seen, by simp [depScan, hx], hn, fun x hx => Or.inl hx⟩
      | some tn =>
        by_cases hc : tn ≠ cn ∧ tn ∉ seen ∧ _is_known_class classes tn ∧ tn ∉ seen_members
        · refine ⟨seen ++ [tn], by simp [depScan, hx, hc], ?_, ?_⟩
          · simp [List.nodup_append, hn, hc.2.1]
          · intro x hxm
            rcases List.mem_append.mp hxm with h | h
            · exact Or.inl h
            · have : x = tn := by simpa using h
              subst this
              exact Or.inr ⟨hc.1, hc.2.2.1, hc.2.2.2⟩
        · refine ⟨seen, ?_, hn, fun x hx => Or.inl hx⟩
          simp only [depScan, hx]
          rw [if_neg hc]
    obtain ⟨seen1, heq, hn1, hmem1⟩ := hstep
    rw [heq]
    have hps := depParamScan_spec classes cn seen_members f.parameters seen1 hn1
    refine ⟨(ih _ hps.1).1, fun x hxm => ?_⟩
    rcases (ih _ hps.1).2 x hxm with hin | hnew
    · rcases hps.2 x hin with h | h
      · exact hmem1 x h
      · exact Or.inr h
    · exact Or.inr hnew


/-- C4: classification emits at most one dependency edge per distinct
target across the whole method set, never to a target that already
received a composition/aggregation edge in the same call, and only to
targets that differ from the classified type and are present in the
store. -/
theorem c4_dependency_dedup :
    ∀ (classes : Store) (ci : ClassInfo),
      List.Pairwise (fun a b => a.to_class ≠ b.to_class)
        ((_analyze_class classes ci).filter
          (fun r => decide (r.rel_type = RelationType.dependency))) ∧
      ∀ r ∈ (_analyze_class classes ci).filter
          (fun r => decide (r.rel_type = RelationType.dependency)),
        r.to_class ≠ ci.name ∧ _is_known_class classes r.to_class = true ∧
        ∀ s ∈ _analyze_class classes ci,
          (s.rel_type = RelationType.composition ∨
            s.rel_type = RelationType.aggregation) →
          s.to_class ≠ r.to_class := by
  intro classes ci
  have hA : _analyze_class classes ci =
      (ci.base_classes.filterMap (fun b => (_extract_type_name b).map (fun bn =>
        ({ from_class := bn, to_class := ci.name,
           rel_type := RelationType.inheritance } : Relationship)))) ++
      (memberScan classes ci.name ci.members []).2 ++
      (depScan classes ci.name (memberScan classes ci.name ci.members []).1
          ci.methods []).map
        (fun d => { from_class := ci.name, to_class := d,
                    rel_type := RelationType.dependency }) := rfl
  have hinh : ∀ r ∈ ci.base_classes.filterMap (fun b =>
      (_extract_type_name b).map (fun bn =>
        ({ from_class := bn, to_class := ci.name,
           rel_type := RelationType.inheritance } : Relationship))),
      r.rel_type = RelationType.inheritance := by
    intro r hr
    rcases List.mem_filterMap.mp hr with ⟨b, _, hfb⟩
    cases he : _extract_type_name b with
    | none => rw [he] at hfb; exact absurd hfb (by simp)
    | some bn =>
      rw [he] at hfb
      simp only [Option.map_some', Option.some.injEq] at hfb
      rw [← hfb]
  have hmem2 := (memberScan_spec classes ci.name ci.members []).2
  have hdep := depScan_spec classes ci.name
    (memberScan classes ci.name ci.members []).1 ci.methods [] List.nodup_nil
  have hf1 : (ci.base_classes.filterMap (fun b => (_extract_type_name b).map (fun bn =>
      ({ from_class := bn, to_class := ci.name,
         rel_type := RelationType.inheritance } : Relationship)))).filter
      (fun r => decide (r.rel_type = RelationType.dependency)) = [] := by
    rw [List.filter_eq_nil_iff]
    intro r hr
    simp [hinh r hr]
  have hf2 : ((memberScan classes ci.name ci.members []).2).filter
      (fun r => decide (r.rel_type = RelationType.dependency)) = [] := by
    rw [List.filter_eq_nil_iff]
    intro r hr
    rcases (hmem2 r hr).2.2 with h | h <;> simp [h]
  have hf3 : ((depScan classes ci.name (memberScan classes ci.name ci.members []).1
      ci.methods []).map (fun d =>
        ({ from_class := ci.name, to_class := d,
           rel_type := RelationType.dependency } : Relationship))).filter
      (fun r => decide (r.rel_type = RelationType.dependency)) =
      (depScan classes ci.name (memberScan classes ci.name ci.members []).1
        ci.methods []).map (fun d =>
        ({ from_class := ci.name, to_class := d,
           rel_type := RelationType.dependency } : Relationship)) := by
    rw [List.filter_eq_self]
    intro r hr
    rcases List.mem_map.mp hr with ⟨d, _, hfd⟩
    rw [← hfd]
    simp
  have hfilter : (_analyze_class classes ci).filter
      (fun r => decide (r.rel_type = RelationType.dependency)) =
      (depScan classes ci.name (memberScan classes ci.name ci.members []).1
        ci.methods []).map (fun d =>
        ({ from_class := ci.name, to_class := d,
           rel_type := RelationType.dependency } : Relationship)) := by
    rw [hA, List.filter_append, List.filter_append, hf1, hf2, hf3]
    simp
  constructor
  · rw [hfilter]
    rw [List.pairwise_map]
    exact List.Pairwise.imp (fun h => by simpa using h) hdep.1
  · intro r hr
    rw [hfilter] at hr
    rcases List.mem_map.mp hr with ⟨d, hd, hfd⟩
    have hdP : d ≠ ci.name ∧ _is_known_class classes d = true ∧
        d ∉ (memberScan classes ci.name ci.members []).1 := by
      rcases hdep.2 d hd with h | h
      · exact absurd h (List.not_mem_nil d)
      · exact h
    have hto : r.to_class = d := by rw [← hfd]
    refine ⟨by rw [hto]; exact hdP.1, by rw [hto]; exact hdP.2.1, ?_⟩
    intro s hs hstype
    rw [hA] at hs
    rcases List.mem_append.mp hs with hs1 | hs2
    · rcases List.mem_append.mp hs1 with hsa | hsb
      · have := hinh s hsa
        rcases hstype with h | h <;> rw [this] at h <;> exact absurd h (by simp)
      · have := (hmem2 s hsb).1
        rw [hto]
        intro he
        exact hdP.2.2 (he ▸ this)
    · rcases List.mem_map.mp hs2 with ⟨d2, _, hfd2⟩
      have : s.rel_type = RelationType.dependency := by rw [← hfd2]
      rcases hstype with h | h <;> rw [this] at h <;> exact absurd h (by simp)



/-- C5: for every record and every raw base-class expression resolving to
a bare name, classification emits `inheritance(from = base, to = this)`
regardless of store membership; in particular, parsing
`struct Base {}; struct Derived : public Base {};` and classifying
`Derived` yields exactly `inheritance(Base, Derived)`. -/
theorem c5_inheritance_edges :
    (∀ (classes : Store) (ci : ClassInfo) (b bn : String),
      b ∈ ci.base_classes → _extract_type_name b = some bn →
      ({ from_class := bn, to_class := ci.name,
         rel_type := RelationType.inheritance } : Relationship) ∈
        _analyze_class classes ci) ∧
    ((match storeFind exParsedStore "Derived" with
      | some ci => _analyze_class exParsedStore ci
      | none => []) =
      [{ from_class := "Base", to_class := "Derived",
         rel_type := RelationType.inheritance }]) := by
  refine ⟨?_, by decide⟩
  intro classes ci b bn hb he
  have hmem : ({ from_class := bn, to_class := ci.name,
                 rel_type := RelationType.inheritance } : Relationship) ∈
      ci.base_classes.filterMap (fun b => (_extract_type_name b).map (fun bn =>
        ({ from_class := bn, to_class := ci.name,
           rel_type := RelationType.inheritance } : Relationship))) := by
    apply List.mem_filterMap.mpr
    exact ⟨b, hb, by rw [he]; rfl⟩
  exact List.mem_append.mpr (Or.inl (List.mem_append.mpr (Or.inl hmem)))

/-- C5 witness: classifying a record whose base expression `ns::Base`
resolves to `Base` yields the inheritance edge even though the store is
empty (the base name is not in the Model Store). -/
theorem c5_inheritance_edges_witness :
    ({ from_class := "Base", to_class := "Derived",
       rel_type := RelationType.inheritance } : Relationship) ∈
      _analyze_class [] { name := "Derived", base_classes := ["ns::Base"] } :=
  c5_inheritance_edges.1 [] { name := "Derived", base_classes := ["ns::Base"] }
    "ns::Base" "Base" (by decide) (by decide)

/-- C6: traversing from a stored type with `max_depth = 0` and no kind
filter visits exactly that type and returns exactly the deduplicated
relationships classified from it, with nothing else enqueued. -/
theorem c6_depth_zero :
    ∀ (classes : Store) (x : String) (ci : ClassInfo),
      storeFind classes x = some ci →
      analyze_from_class classes x 0 none =
        ([x], dedupRels (_analyze_class classes ci)) := by
  intro classes x ci hfind
  have hk : _is_known_class classes x = true := by
    rw [_is_known_class, hfind]; rfl
  unfold analyze_from_class
  rw [if_neg (by simp [hk])]
  simp only []
  have hgo : bfsGo classes (allowedOf none) 0 (bfsFuel classes) [(x, 0)] [] [] =
      ([x], _analyze_class classes ci) := by
    rw [bfsFuel]
    rw [show allowedOf none = none from rfl]
    rw [bfsGo]
    rw [if_neg (List.not_mem_nil x)]
    rw [hfind]
    simp only [skipRel, Bool.not_false, List.filter_true]
    rw [if_neg (by omega)]
    rw [if_neg (fun h => absurd h.1 (by omega))]
    rw [if_neg (fun h => absurd h.1 (by omega))]
    simp only [List.nil_append, List.append_nil]
    rw [bfsGo]
  rw [hgo]

/-- C6 witness: depth-zero traversal from `A` in the three-class example
store returns exactly `A` and its own deduplicated classification. -/
theorem c6_depth_zero_witness :
    analyze_from_class exStoreDeps "A" 0 none =
      (["A"], dedupRels (_analyze_class exStoreDeps exDepClass)) :=
  c6_depth_zero exStoreDeps "A" exDepClass (by decide)

/-- C8: a parse of an already-processed path is a no-op returning success,
and parsing any path a second time right after parsing it leaves the
parser state unchanged and returns success. -/
theorem c8_parse_idempotent :
    (∀ (st : CppParserState) (path content : String),
      path ∈ st.parsed_files → parse_file st path content = (st, true)) ∧
    (∀ (st : CppParserState) (path content : String),
      parse_file (parse_file st path content).1 path content =
        ((parse_file st path content).1, true)) := by
  have hbase : ∀ (st : CppParserState) (path content : String),
      path ∈ st.parsed_files → parse_file st path content = (st, true) := by
    intro st path content h
    unfold parse_file
    rw [if_pos h]
  refine ⟨hbase, ?_⟩
  intro st path content
  apply hbase
  by_cases h : path ∈ st.parsed_files
  · rw [hbase st path content h]; exact h
  · show path ∈ (parse_file st path content).1.parsed_files
    unfold parse_file
    rw [if_neg h]
    simp

/-- C8 witness: re-parsing a path already in the processed set is the
identity on the parser state and returns success. -/
theorem c8_parse_idempotent_witness :
    parse_file ⟨[], ["a.h"]⟩ "a.h" "struct S \x7b\x7d;" = (⟨[], ["a.h"]⟩, true) :=
  c8_parse_idempotent.1 ⟨[], ["a.h"]⟩ "a.h" "struct S \x7b\x7d;" (by decide)

theorem parseBodyLines_append :
    ∀ (pre post : List (List Char)) (cur : String),
      parseBodyLines (pre ++ post) cur =
        ((parseBodyLines pre cur).1 ++ (parseBodyLines post (trackVis cur pre)).1,
         (parseBodyLines pre cur).2 ++ (parseBodyLines post (trackVis cur pre)).2) := by
  intro pre
  induction pre with
  | nil => intro post cur; simp [parseBodyLines, trackVis]
  | cons line rest ih =>
    intro post cur
    cases hcl : classifyLine line with
    | acc kw =>
      have ht : trackVis cur (line :: rest) = trackVis kw rest := by
        simp [trackVis, List.foldl_cons, hcl]
      simp only [List.cons_append, parseBodyLines, hcl, ht]
      exact ih post kw
    | meth nm ret ps =>
      have ht : trackVis cur (line :: rest) = trackVis cur rest := by
        simp [trackVis, List.foldl_cons, hcl]
      simp only [List.cons_append, parseBodyLines, hcl, ht, List.append_eq]
      rw [ih post cur]
    | ctor nm ps =>
      have ht : trackVis cur (line :: rest) = trackVis cur rest := by
        simp [trackVis, List.foldl_cons, hcl]
      simp only [List.cons_append, parseBodyLines, hcl, ht, List.append_eq]
      rw [ih post cur]
    | mem nm ty =>
      have ht : trackVis cur (line :: rest) = trackVis cur rest := by
        simp [trackVis, List.foldl_cons, hcl]
      simp only [List.cons_append, parseBodyLines, hcl, ht, List.append_eq]
      rw [ih post cur]
    | skip =>
      have ht : trackVis cur (line :: rest) = trackVis cur rest := by
        simp [trackVis, List.foldl_cons, hcl]
      simp only [List.cons_append, parseBodyLines, hcl, ht]
      exact ih post cur

theorem parseBodyLines_const_access :
    ∀ (lines : List (List Char)) (cur : String),
      (∀ l ∈ lines, isAccessHit (classifyLine l) = false) →
      (∀ m ∈ (parseBodyLines lines cur).1, m.access = cur) ∧
      (∀ f ∈ (parseBodyLines lines cur).2, f.access = cur) := by
  intro lines
  induction lines with
  | nil => intro cur _; simp [parseBodyLines]
  | cons line rest ih =>
    intro cur H
    have Hrest : ∀ l ∈ rest, isAccessHit (classifyLine l) = false :=
      fun l hl => H l (List.mem_cons_of_mem _ hl)
    cases hcl : classifyLine line with
    | acc kw =>
      have h1 := H line (List.mem_cons_self line rest)
      rw [hcl] at h1
      simp [isAccessHit] at h1
    | meth nm ret ps =>
      simp only [parseBodyLines, hcl]
      refine ⟨(ih cur Hrest).1, fun f hf => ?_⟩
      rcases List.mem_cons.mp hf with h | h
      · rw [h]
      · exact (ih cur Hrest).2 f h
    | ctor nm ps =>
      simp only [parseBodyLines, hcl]
      refine ⟨(ih cur Hrest).1, fun f hf => ?_⟩
      rcases List.mem_cons.mp hf with h | h
      · rw [h]
      · exact (ih cur Hrest).2 f h
    | mem nm ty =>
      simp only [parseBodyLines, hcl]
      refine ⟨fun m hm => ?_, (ih cur Hrest).2⟩
      rcases List.mem_cons.mp hm with h | h
      · rw [h]
      · exact (ih cur Hrest).1 m h
    | skip =>
      simp only [parseBodyLines, hcl]
      exact ih cur Hrest

theorem trackVis_const :
    ∀ (lines : List (List Char)) (cur : String),
      (∀ l ∈ lines, isAccessHit (classifyLine l) = false) →
      trackVis cur lines = cur := by
  intro lines
  induction lines with
  | nil => intro cur _; rfl
  | cons line rest ih =>
    intro cur H
    cases hcl : classifyLine line with
    | acc kw =>
      have h1 := H line (List.mem_cons_self line rest)
      rw [hcl] at h1
      simp [isAccessHit] at h1
    | meth nm ret ps =>
      simp only [trackVis, List.foldl_cons, hcl]
      exact ih cur (fun l hl => H l (List.mem_cons_of_mem _ hl))
    | ctor nm ps =>
      simp only [trackVis, List.foldl_cons, hcl]
      exact ih cur (fun l hl => H l (List.mem_cons_of_mem _ hl))
    | mem nm ty =>
      simp only [trackVis, List.foldl_cons, hcl]
      exact ih cur (fun l hl => H l (List.mem_cons_of_mem _ hl))
    | skip =>
      simp only [trackVis, List.foldl_cons, hcl]
      exact ih cur (fun l hl => H l (List.mem_cons_of_mem _ hl))

/-- C9: the body decomposer starts from the struct/class default
visibility (`public` for struct, `private` for class); an
access-specifier line replaces the running visibility by exactly the
specifier it names (and is what `trackVis` records as the most recent
specifier); splitting the line list anywhere shows the remaining lines
are processed under the most recently seen specifier; and for an
*arbitrary* running visibility `cur` — `public`, `protected` or
`private` alike — every record emitted while no further specifier line
has been seen carries exactly `cur`. -/
theorem c9_visibility :
    ∀ (is_struct : Bool) (body : List Char) (cur kw : String) (line : List Char)
      (pre post : List (List Char)),
      (_parse_class_body body is_struct =
        parseBodyLines (splitOnChar '\n' [] body) (defaultAccess is_struct)) ∧
      (classifyLine line = LineHit.acc kw →
        parseBodyLines (line :: post) cur = parseBodyLines post kw ∧
        trackVis cur (pre ++ [line]) = kw) ∧
      (parseBodyLines (pre ++ post) cur =
        ((parseBodyLines pre cur).1 ++ (parseBodyLines post (trackVis cur pre)).1,
         (parseBodyLines pre cur).2 ++ (parseBodyLines post (trackVis cur pre)).2)) ∧
      ((∀ l ∈ pre, isAccessHit (classifyLine l) = false) →
        trackVis cur pre = cur ∧
        (∀ m ∈ (parseBodyLines pre cur).1, m.access = cur) ∧
        (∀ f ∈ (parseBodyLines pre cur).2, f.access = cur)) := by
  intro is_struct body cur kw line pre post
  refine ⟨rfl, ?_, parseBodyLines_append pre post cur, ?_⟩
  · intro h
    constructor
    · simp [parseBodyLines, h]
    · simp [trackVis, List.foldl_append, List.foldl_cons, List.foldl_nil, h]
  · intro H
    exact ⟨trackVis_const pre cur H, (parseBodyLines_const_access pre cur H).1,
      (parseBodyLines_const_access pre cur H).2⟩

/-- C9 witness: a `protected :` line inside a `struct` body switches the
running visibility from the `public` default to `protected`, and the
member parsed from `int x ;` under running visibility `protected`
carries `protected`. -/
theorem c9_visibility_witness :
    parseBodyLines ["protected :".data, "int x ;".data] (defaultAccess true) =
      parseBodyLines ["int x ;".data] "protected" ∧
    ({ name := "x", type_name := "int", access := "protected" } : MemberInfo).access =
      "protected" := by
  have h2 := (c9_visibility true [] (defaultAccess true) "protected"
    "protected :".data [] ["int x ;".data]).2.1 (by decide)
  have h4 := (c9_visibility true [] "protected" "" [] ["int x ;".data] []).2.2.2 (by decide)
  exact ⟨h2.1, h4.2.1
    { name := "x", type_name := "int", access := "protected" } (by decide)⟩

/-- C10: the visited set of `analyze_from_class` is not a subset of the
store's names: with `Derived` stored whose base resolves to the absent
name `Base` and depth 1, the dequeued `Base` is marked visited before the
store-membership check, appears in the result, and contributes no
relationships of its own. -/
theorem c10_visited_absent_name :
    analyze_from_class exStoreAbsentBase "Derived" 1 none =
      (["Derived", "Base"],
       [{ from_class := "Base", to_class := "Derived",
          rel_type := RelationType.inheritance }]) ∧
    storeFind exStoreAbsentBase "Base" = none := by
  decide


/-- C4 witness: in the three-class example store, the dependency edge
`A ..> C` targets a stored type different from `A`, and the
composition edge `A *-- B` of the same call has a different target. -/
theorem c4_dependency_dedup_witness :
    ({ from_class := "A", to_class := "C",
       rel_type := RelationType.dependency } : Relationship).to_class ≠
        exDepClass.name ∧
    _is_known_class exStoreDeps
      ({ from_class := "A", to_class := "C",
         rel_type := RelationType.dependency } : Relationship).to_class = true ∧
    ({ from_class := "A", to_class := "B",
       rel_type := RelationType.composition } : Relationship).to_class ≠
      ({ from_class := "A", to_class := "C",
         rel_type := RelationType.dependency } : Relationship).to_class := by
  have h := (c4_dependency_dedup exStoreDeps exDepClass).2
    { from_class := "A", to_class := "C", rel_type := RelationType.dependency }
    (by decide)
  exact ⟨h.1, h.2.1,
    h.2.2 { from_class := "A", to_class := "B", rel_type := RelationType.composition }
      (by decide) (by decide)⟩

end Cpp2Uml
